import Mathlib

/-!
Verification of `psimpl.h` — generic n-dimensional polyline simplification.

A polyline is a flat coordinate buffer (`List ℚ`), `DIM` consecutive rationals
per point.  The C++ library is generic over signed numeric value types and
computes the interpolation fraction in `float`; the embedding uses exact
rational arithmetic (`ℚ`) throughout, so `static_cast<float>(cw) / cv` is
modelled as exact division `cw / cv`.  Iterator arithmetic (advance by `DIM`)
is modelled by working with the list of `DIM`-sized chunks of the buffer or
with coordinate offsets into it, exactly mirroring the source loops.
-/

-- Let concrete rational computations reduce during `decide`
-- (the library's arithmetic is evaluated on explicit inputs below).
attribute [local semireducible] Rat.add Rat.mul Rat.inv Rat.sub Rat.ofScientific

open scoped List

namespace Psimpl

/-- One point: `DIM` consecutive coordinates (a chunk of the flat buffer). -/
abbrev Pt := List ℚ

/-! ### `psimpl::math` primitives (psimpl.h lines 150-416)

Each C++ primitive loops `d = 0 .. DIM-1` over the coordinates of its
argument points; on two chunks of length `DIM` that loop is exactly a
`zipWith` over the chunks. -/

/-- `math::make_vector` (lines 198-208): the vector `p2 - p1`, coordinatewise. -/
def make_vector (p1 p2 : Pt) : Pt :=
  List.zipWith (fun a b => b - a) p1 p2

/-- `math::dot` (lines 217-227): sum of coordinatewise products. -/
def dot (v1 v2 : Pt) : ℚ :=
  (List.zipWith (· * ·) v1 v2).sum

/-- `math::interpolate` (lines 238-249): `p1 + fraction * (p2 - p1)`, coordinatewise. -/
def interpolate (p1 p2 : Pt) (fraction : ℚ) : Pt :=
  List.zipWith (fun a b => a + fraction * (b - a)) p1 p2

/-- `math::point_distance2` (lines 258-268): sum of squared coordinate differences. -/
def point_distance2 (p1 p2 : Pt) : ℚ :=
  (List.zipWith (fun a b => (a - b) * (a - b)) p1 p2).sum

/-- `math::line_distance2` (lines 278-302): squared distance from `p` to the
infinite line through `l1`, `l2`.  The `float` fraction is modelled as exact
rational division. -/
def line_distance2 (l1 l2 p : Pt) : ℚ :=
  let v := make_vector l1 l2
  let w := make_vector l1 p
  let cv := dot v v
  let cw := dot w v
  let fraction := cw / cv
  point_distance2 p (interpolate l1 l2 fraction)

/-- `math::segment_distance2` (lines 312-345): squared distance from `p` to the
segment `(s1, s2)`; the projection is clamped to the segment. -/
def segment_distance2 (s1 s2 p : Pt) : ℚ :=
  let v := make_vector s1 s2
  let w := make_vector s1 p
  let cw := dot w v
  if cw ≤ 0 then
    point_distance2 p s1
  else
    let cv := dot v v
    if cv ≤ cw then
      point_distance2 p s2
    else
      let fraction := cw / cv
      point_distance2 p (interpolate s1 s2 fraction)

/-- `math::ray_distance2` (lines 355-384): squared distance from `p` to the ray
from `r1` through `r2`; clamped only on the near side. -/
def ray_distance2 (r1 r2 p : Pt) : ℚ :=
  let v := make_vector r1 r2
  let w := make_vector r1 p
  let cv := dot v v
  let cw := dot w v
  if cw ≤ 0 then
    point_distance2 p r1
  else
    let fraction := cw / cv
    point_distance2 p (interpolate r1 r2 fraction)

/-! ### Chunking the flat coordinate buffer into points -/

/-- Structural worker for `toPoints`: the fuel only bounds the recursion depth
(one unit per point suffices, and `toPoints` supplies the buffer length). -/
def toPointsGo (D : ℕ) : ℕ → List ℚ → List Pt
  | _, [] => []
  | 0, _ :: _ => []
  | fuel + 1, x :: xs => (x :: xs).take D :: toPointsGo D fuel ((x :: xs).drop D)

/-- Split a flat coordinate buffer into its `D`-sized points, in order. -/
def toPoints (D : ℕ) (xs : List ℚ) : List Pt :=
  if D = 0 then [] else toPointsGo D xs.length xs

lemma toPointsGo_fuel {D : ℕ} (hD : D ≠ 0) :
    ∀ (f1 f2 : ℕ) (xs : List ℚ), xs.length ≤ f1 → xs.length ≤ f2 →
      toPointsGo D f1 xs = toPointsGo D f2 xs := by
  intro f1
  induction f1 with
  | zero =>
    intro f2 xs h1 _
    match xs, h1 with
    | [], _ => cases f2 <;> rfl
  | succ f ih =>
    intro f2 xs h1 h2
    match xs with
    | [] => cases f2 <;> rfl
    | x :: xs =>
      match f2, h2 with
      | g + 1, h2 =>
        simp only [toPointsGo]
        have hd : 0 < D := Nat.pos_of_ne_zero hD
        have hl : ((x :: xs).drop D).length ≤ f := by
          simp only [List.length_drop, List.length_cons] at *
          omega
        have hl2 : ((x :: xs).drop D).length ≤ g := by
          simp only [List.length_drop, List.length_cons] at *
          omega
        rw [ih g _ hl hl2]

/-- The defining unfolding of `toPoints`. -/
lemma toPoints_eq (D : ℕ) (xs : List ℚ) :
    toPoints D xs =
      if D = 0 ∨ xs = [] then [] else xs.take D :: toPoints D (xs.drop D) := by
  by_cases hD : D = 0
  · simp [toPoints, hD]
  · match xs with
    | [] => simp [toPoints, toPointsGo, hD]
    | x :: xs =>
      simp only [toPoints, if_neg hD, List.length_cons, toPointsGo, hD, false_or,
        List.cons_ne_nil, if_false, List.cons.injEq, true_and]
      exact toPointsGo_fuel hD _ _ _
        (by simp only [List.length_drop, List.length_cons]; omega)
        (le_refl _)

/-- The point whose first coordinate sits at offset `i` of the buffer
(the C++ `coords + i` pointer read `DIM` wide). -/
def pointAt (D : ℕ) (coords : List ℚ) (i : ℕ) : Pt :=
  (coords.drop i).take D

/-- Keep the chunks whose mask bit is set (the "copy all keys" loops,
lines 989-998 and 1066-1074). -/
def maskFilter : List Bool → List Pt → List Pt
  | b :: bs, c :: cs => if b then c :: maskFilter bs cs else maskFilter bs cs
  | _, _ => []

/-! ### Single-pass simplifiers (PolylineSimplification, lines 463-920)

Each routine validates its input on the flat buffer and, on violation, copies
the input verbatim (`std::copy (first, last, result)`).  On the valid path the
source's iterator sweep (advance by `DIM`) is rendered as recursion over the
list of `DIM`-chunks. -/

/-- `PolylineSimplification::NthPoint` (lines 463-499).  `k` nth-point jumps of
`n*DIM` from the first point, then a final jump of `r*DIM` to the last point
when `r ≠ 0`. -/
def NthPoint (D : ℕ) (xs : List ℚ) (n : ℕ) : List ℚ :=
  let coordCount := xs.length
  let pointCount := if D = 0 then 0 else coordCount / D
  if coordCount % D ≠ 0 ∨ pointCount < 2 ∨ n < 2 then xs
  else
    let ps := toPoints D xs
    let k := (pointCount - 1) / n
    let r := pointCount - k * n - 1
    (ps.getD 0 [] :: (List.range k).map (fun i => ps.getD ((i + 1) * n) [])
      ++ if r ≠ 0 then [ps.getD (pointCount - 1) []] else []).flatten

/-- The scan of `RadialDistance` over the interior points (loop at lines
557-564): `c` is the current key; a point closer than `tol2` is skipped,
otherwise it becomes the new key and is copied. -/
def rdRec (tol2 : ℚ) (c : Pt) : List Pt → List Pt
  | [] => []
  | p :: ps =>
    if point_distance2 c p < tol2 then rdRec tol2 c ps
    else p :: rdRec tol2 p ps

/-- `PolylineSimplification::RadialDistance` (lines 532-570). -/
def RadialDistance (D : ℕ) (xs : List ℚ) (tol : ℚ) : List ℚ :=
  let coordCount := xs.length
  let pointCount := if D = 0 then 0 else coordCount / D
  let tol2 := tol * tol
  if coordCount % D ≠ 0 ∨ pointCount < 2 ∨ tol2 = 0 then xs
  else
    match toPoints D xs with
    | [] => xs
    | p0 :: rest =>
      (p0 :: rdRec tol2 p0 rest.dropLast ++ [rest.getLastD []]).flatten

/-- The window sweep of single-pass `PerpendicularDistance` (loop at lines
706-726): the argument list holds the points from `p1` on, `p0` is the point
before it.  When `p1` is within `tol2` of segment `(p0, p2)` it is dropped and
the window moves up two points (with the `p1 == last` break guard); otherwise
`p1` is kept and the window slides one point. -/
def pdRec (tol2 : ℚ) (p0 : Pt) : List Pt → List Pt
  | [] => []
  | [p1] => [p1]
  | [p1, p2] =>
    if segment_distance2 p0 p2 p1 < tol2 then [p2]
    else p1 :: pdRec tol2 p1 [p2]
  | p1 :: p2 :: r :: rs =>
    if segment_distance2 p0 p2 p1 < tol2 then p2 :: pdRec tol2 p2 (r :: rs)
    else p1 :: pdRec tol2 p1 (p2 :: r :: rs)

/-- `PolylineSimplification::PerpendicularDistance` single pass (lines 679-732). -/
def PerpendicularDistance (D : ℕ) (xs : List ℚ) (tol : ℚ) : List ℚ :=
  let coordCount := xs.length
  let pointCount := if D = 0 then 0 else coordCount / D
  let tol2 := tol * tol
  if coordCount % D ≠ 0 ∨ pointCount < 3 ∨ tol2 = 0 then xs
  else
    match toPoints D xs with
    | [] => xs
    | p0 :: rest => (p0 :: pdRec tol2 p0 rest).flatten

/-- The intermediate and final passes of the repeated `PerpendicularDistance`
(lines 620-643): `r` remaining passes; a pass that does not shrink the buffer
returns its input (the source copies `tempPoly`, whose length equals the
output's). -/
def pdrRest (D : ℕ) (tol : ℚ) : ℕ → List ℚ → List ℚ
  | 0, cur => cur
  | 1, cur => PerpendicularDistance D cur tol
  | r + 2, cur =>
    let nxt := PerpendicularDistance D cur tol
    if nxt.length = cur.length then cur
    else pdrRest D tol (r + 1) nxt

/-- `PolylineSimplification::PerpendicularDistance` with repeat (lines 588-644):
`repeat == 1` is the single pass, `repeat < 1` copies through, otherwise up to
`repeat` passes with an early stop when a pass does not shrink the buffer. -/
def PerpendicularDistanceRepeat (D : ℕ) (xs : List ℚ) (tol : ℚ) (rep : ℕ) : List ℚ :=
  if rep = 1 then PerpendicularDistance D xs tol
  else if rep < 1 then xs
  else
    let t1 := PerpendicularDistance D xs tol
    if t1.length = xs.length then t1
    else pdrRest D tol (rep - 1) t1

/-- The scan of `ReumannWitkam` (loop at lines 798-810): `l0`,`l1` define the
current line, `cur` is the previous test point `pi`; each new point `pj` inside
`tol2` of the line is passed over, otherwise `pi` becomes a key and the line is
redefined through `pi` and `pj`.  After the loop the final `pj` is copied. -/
def rwRec (tol2 : ℚ) (l0 l1 cur : Pt) : List Pt → List Pt
  | [] => [cur]
  | pj :: ys =>
    if line_distance2 l0 l1 pj < tol2 then rwRec tol2 l0 l1 pj ys
    else cur :: rwRec tol2 cur pj pj ys

/-- `PolylineSimplification::ReumannWitkam` (lines 767-815). -/
def ReumannWitkam (D : ℕ) (xs : List ℚ) (tol : ℚ) : List ℚ :=
  let coordCount := xs.length
  let pointCount := if D = 0 then 0 else coordCount / D
  let tol2 := tol * tol
  if coordCount % D ≠ 0 ∨ pointCount < 3 ∨ tol2 = 0 then xs
  else
    match toPoints D xs with
    | p0 :: p1 :: rest => (p0 :: rwRec tol2 p0 p1 p1 rest).flatten
    | _ => xs

/-- The scan of `Opheim` (loop at lines 890-915): `r0` is the current key,
`r1` the ray point (meaningful only when `rayDef`), `cur` the previous test
point `pi`.  While the ray is undefined, points radially within `minTol2` of
the key are passed over and the first point at or beyond it fixes the ray
through the previous point (`r1 = pi`).  A defined ray absorbs `pj` while it is
radially within `maxTol2` of the key and within `minTol2` of the ray; otherwise
`pi` becomes a key and the ray is reset. -/
def opRec (minTol2 maxTol2 : ℚ) (r0 r1 : Pt) (rayDef : Bool) (cur : Pt) :
    List Pt → List Pt
  | [] => [cur]
  | pj :: ys =>
    if rayDef = false ∧ point_distance2 r0 pj < minTol2 then
      opRec minTol2 maxTol2 r0 r1 false pj ys
    else
      let r1n := if rayDef then r1 else cur
      if point_distance2 r0 pj < maxTol2 ∧ ray_distance2 r0 r1n pj < minTol2 then
        opRec minTol2 maxTol2 r0 r1n true pj ys
      else
        cur :: opRec minTol2 maxTol2 cur r1n false pj ys

/-- `PolylineSimplification::Opheim` (lines 857-920). -/
def Opheim (D : ℕ) (xs : List ℚ) (minTol maxTol : ℚ) : List ℚ :=
  let coordCount := xs.length
  let pointCount := if D = 0 then 0 else coordCount / D
  let minTol2 := minTol * minTol
  let maxTol2 := maxTol * maxTol
  if coordCount % D ≠ 0 ∨ pointCount < 2 ∨ minTol2 = 0 ∨ maxTol2 = 0 then xs
  else
    match toPoints D xs with
    | p0 :: p1 :: rest => (p0 :: opRec minTol2 maxTol2 p0 p0 false p1 rest).flatten
    | _ => xs

/-! ### The Douglas-Peucker engine (`DPHelper`, lines 1251-1413)

`DPHelper` works on a raw coordinate array with coordinate offsets; the
embedding keeps the flat buffer and the offsets.  The `keys` byte array is a
`List Bool` of one flag per point. -/

/-- `DPHelper::KeyInfo` (lines 1263-1269): coordinate offset of a sub-polyline's
key and its squared segment distance; default-constructed as `{0, 0}`. -/
structure KeyInfo where
  index : ℕ
  dist2 : ℚ
deriving DecidableEq, Repr, Inhabited

/-- `DPHelper::SubPoly` (lines 1254-1260): coordinate offsets of a sub-polyline. -/
structure SubPoly where
  first : ℕ
  last : ℕ
deriving DecidableEq, Repr

/-- `DPHelper::SubPolyAlt` (lines 1272-1283): a sub-polyline together with its
key; ordered by the key's squared distance. -/
structure SubPolyAlt where
  first : ℕ
  last : ℕ
  keyInfo : KeyInfo
deriving DecidableEq, Repr, Inhabited

/-- `DPHelper::FindKey` (lines 1394-1412): scan the interior offsets
`first+DIM, first+2*DIM, ...` strictly below `last`, skipping any distance
strictly below the running maximum (so a tie replaces the stored key), starting
from the default `KeyInfo {0, 0}`. -/
def FindKey (D : ℕ) (coords : List ℚ) (first last : ℕ) : KeyInfo :=
  (List.range' (first + D) ((last - (first + D) + (D - 1)) / D) D).foldl
    (fun ki cur =>
      let d2 := segment_distance2 (pointAt D coords first) (pointAt D coords last)
        (pointAt D coords cur)
      if d2 < ki.dist2 then ki else ⟨cur, d2⟩)
    ⟨0, 0⟩

/-- The stack-driven loop of `DPHelper::Approximate` (lines 1313-1324).  The
fuel bounds the number of pops; the caller passes more fuel than any run can
use (each valid pop marks a fresh interior key, so pops are bounded by twice
the point count). -/
def dpLoop (D : ℕ) (coords : List ℚ) (tol2 : ℚ) :
    ℕ → List SubPoly → List Bool → List Bool
  | 0, _, keys => keys
  | _ + 1, [], keys => keys
  | fuel + 1, sp :: stack, keys =>
    let ki := FindKey D coords sp.first sp.last
    if ki.index ≠ sp.last ∧ tol2 < ki.dist2 then
      dpLoop D coords tol2 fuel
        (⟨sp.first, ki.index⟩ :: ⟨ki.index, sp.last⟩ :: stack)
        (keys.set (ki.index / D) true)
    else
      dpLoop D coords tol2 fuel stack keys

/-- `DPHelper::Approximate` (lines 1294-1325): mark first and last point,
push the whole polyline, and run the LIFO worklist. -/
def Approximate (D : ℕ) (coords : List ℚ) (tol : ℚ) : List Bool :=
  let tol2 := tol * tol
  let pointCount := coords.length / D
  let keys := ((List.replicate pointCount false).set 0 true).set (pointCount - 1) true
  dpLoop D coords tol2 ((pointCount + 2) * (pointCount + 2))
    [⟨0, coords.length - D⟩] keys

/-- `PolylineSimplification::DouglasPeucker` (lines 963-999): validate, reduce
with `RadialDistance`, run `DPHelper::Approximate` on the reduced buffer, then
copy every marked point. -/
def DouglasPeucker (D : ℕ) (xs : List ℚ) (tol : ℚ) : List ℚ :=
  let coordCount := xs.length
  let pointCount := if D = 0 then 0 else coordCount / D
  if coordCount % D ≠ 0 ∨ pointCount < 2 ∨ tol = 0 then xs
  else
    let reduced := RadialDistance D xs tol
    let keys := Approximate D reduced tol
    (maskFilter keys (toPoints D reduced)).flatten

/-! #### The `std::priority_queue` of `ApproximateAlt`

`std::priority_queue<SubPolyAlt>` is a binary max-heap over `operator<`
(comparison of `keyInfo.dist2`).  The C++ standard fixes only the heap
property, so the pop order among equal priorities is implementation defined;
the embedding implements the GNU libstdc++ algorithms (`__push_heap`,
`__adjust_heap` from `bits/stl_heap.h`), the de-facto semantics of the
compiled library. -/

/-- The strict-weak-order of `SubPolyAlt::operator<` (line 1280-1282). -/
def spLt (a b : SubPolyAlt) : Prop := a.keyInfo.dist2 < b.keyInfo.dist2

instance : DecidableRel spLt := fun a b => by unfold spLt; infer_instance

/-- libstdc++ `__push_heap`: sift the hole at `hole` up towards the root while
the parent compares less than `value`, then place `value`. -/
def pushHeapLoop (value : SubPolyAlt) : ℕ → ℕ → List SubPolyAlt → List SubPolyAlt
  | 0, hole, c => c.set hole value
  | f + 1, hole, c =>
    if 0 < hole ∧ spLt (c.getD ((hole - 1) / 2) value) value then
      pushHeapLoop value f ((hole - 1) / 2) (c.set hole (c.getD ((hole - 1) / 2) value))
    else
      c.set hole value

/-- `priority_queue::push`: append, then `std::push_heap` on the whole container. -/
def pqPush (c : List SubPolyAlt) (value : SubPolyAlt) : List SubPolyAlt :=
  let c := c ++ [value]
  pushHeapLoop value c.length (c.length - 1) c

/-- libstdc++ `__adjust_heap` first phase: move the hole down to a leaf, always
towards the larger child (`secondChild - 1` when the second child compares less
than the first), returning the container and the final hole position. -/
def adjustDown (len : ℕ) : ℕ → ℕ → List SubPolyAlt → List SubPolyAlt × ℕ
  | 0, hole, c => (c, hole)
  | f + 1, hole, c =>
    if hole < (len - 1) / 2 then
      let sc := 2 * (hole + 1)
      let sc := if spLt (c.getD sc default) (c.getD (sc - 1) default) then sc - 1 else sc
      adjustDown len f sc (c.set hole (c.getD sc default))
    else
      if len % 2 = 0 ∧ hole = (len - 2) / 2 then
        let sc := 2 * (hole + 1)
        ((c.set hole (c.getD (sc - 1) default)), sc - 1)
      else (c, hole)

/-- libstdc++ `__adjust_heap`: hole-down phase then `__push_heap` back up from
the hole (bounded below by `top`). -/
def adjustHeap (top len : ℕ) (value : SubPolyAlt) (hole : ℕ) (c : List SubPolyAlt) :
    List SubPolyAlt :=
  let (c, hole2) := adjustDown len (len + 1) hole c
  -- the upward phase never moves above `top`
  (pushHeapLoop value (hole2 - top) hole2 c)

/-- `priority_queue::pop`: `std::pop_heap` (move the root to the back, adjust
with the old back value) then `pop_back`.  Returns the popped maximum and the
remaining container. -/
def pqPop (c : List SubPolyAlt) : SubPolyAlt × List SubPolyAlt :=
  match c with
  | [] => (default, [])
  | [x] => (x, [])
  | x :: _ :: _ =>
    let lastv := c.getD (c.length - 1) default
    let c1 := (c.set (c.length - 1) x).take (c.length - 1)
    (x, adjustHeap 0 (c.length - 1) lastv 0 c1)

/-- The priority-queue loop of `DPHelper::ApproximateAlt` (lines 1359-1378).
State: fuel, queue container, keys, current key count. -/
def dpAltLoop (D : ℕ) (coords : List ℚ) (countTol : ℕ) :
    ℕ → List SubPolyAlt → List Bool → ℕ → List Bool
  | 0, _, keys, _ => keys
  | _ + 1, [], keys, _ => keys
  | fuel + 1, q@(_ :: _), keys, keyCount =>
    let (sub, q) := pqPop q
    if sub.keyInfo.index ≠ sub.last then
      let keys := keys.set (sub.keyInfo.index / D) true
      let keyCount := keyCount + 1
      if keyCount = countTol then keys
      else
        let left : SubPolyAlt :=
          ⟨sub.first, sub.keyInfo.index, FindKey D coords sub.first sub.keyInfo.index⟩
        let right : SubPolyAlt :=
          ⟨sub.keyInfo.index, sub.last, FindKey D coords sub.keyInfo.index sub.last⟩
        dpAltLoop D coords countTol fuel (pqPush (pqPush q left) right) keys keyCount
    else
      dpAltLoop D coords countTol fuel q keys keyCount

/-- `DPHelper::ApproximateAlt` (lines 1335-1379): mark first and last point;
`countTol == 2` stops there; otherwise seed the priority queue with the whole
polyline and its key and run the worklist until the key count reaches
`countTol` (pops are bounded, so the generous fuel is never exhausted). -/
def ApproximateAlt (D : ℕ) (coords : List ℚ) (countTol : ℕ) : List Bool :=
  let pointCount := coords.length / D
  let keys := ((List.replicate pointCount false).set 0 true).set (pointCount - 1) true
  if countTol = 2 then keys
  else
    let root : SubPolyAlt := ⟨0, coords.length - D, FindKey D coords 0 (coords.length - D)⟩
    dpAltLoop D coords countTol ((pointCount + countTol + 2) * (pointCount + countTol + 2))
      [root] keys 2

/-- `PolylineSimplification::DouglasPeuckerAlt` (lines 1039-1075): validate,
copy the coordinates, run `DPHelper::ApproximateAlt`, then copy every marked
point. -/
def DouglasPeuckerAlt (D : ℕ) (xs : List ℚ) (count : ℕ) : List ℚ :=
  let coordCount := xs.length
  let pointCount := if D = 0 then 0 else coordCount / D
  if coordCount % D ≠ 0 ∨ pointCount ≤ count ∨ count < 2 then xs
  else
    let keys := ApproximateAlt D xs count
    (maskFilter keys (toPoints D xs)).flatten

/-! ### Positional error computation (lines 1114-1171) -/

/-- The inner scan of `ComputePositionalErrors2` (lines 1151-1157): score each
original point against segment `(prev, sEnd)` until one equals `sEnd`
coordinate for coordinate; returns the scores and the remaining originals
(starting at the match when one was found). -/
def cpeInner (prev sEnd : Pt) : List Pt → List ℚ × List Pt
  | [] => ([], [])
  | o :: os =>
    if o = sEnd then ([], o :: os)
    else
      let (es, rem) := cpeInner prev sEnd os
      (segment_distance2 prev sEnd o :: es, rem)

/-- The outer loop of `ComputePositionalErrors2` (lines 1149-1161): one inner
scan per simplification segment. -/
def cpeOuter : List Pt → Pt → List Pt → List ℚ × List Pt
  | origRem, _, [] => ([], origRem)
  | origRem, prev, sEnd :: sRest =>
    let (es, rem) := cpeInner prev sEnd origRem
    let (es2, rem2) := cpeOuter rem sEnd sRest
    (es ++ es2, rem2)

/-- `PolylineSimplification::ComputePositionalErrors2` (lines 1114-1171):
validate both buffers (including equality of the first points); scan the
original along the simplification's segments; a trailing `0` is written and
the result is valid exactly when the originals were not exhausted. -/
def ComputePositionalErrors2 (D : ℕ) (orig simp : List ℚ) : List ℚ × Bool :=
  let oc := orig.length
  let opc := if D = 0 then 0 else oc / D
  let sc := simp.length
  let spc := if D = 0 then 0 else sc / D
  if oc % D ≠ 0 ∨ opc < 2 ∨ sc % D ≠ 0 ∨ spc < 2 ∨ opc < spc ∨
      orig.take D ≠ simp.take D then
    ([], false)
  else
    match toPoints D simp with
    | [] => ([], false)
    | s0 :: sRest =>
      let (errs, rem) := cpeOuter (toPoints D orig) s0 sRest
      (errs ++ if rem ≠ [] then [0] else [], rem ≠ [])

/-! ### The fallback law: malformed input is copied verbatim -/

lemma NthPoint_invalid {D n : ℕ} {xs : List ℚ}
    (h : xs.length % D ≠ 0 ∨ (if D = 0 then 0 else xs.length / D) < 2 ∨ n < 2) :
    NthPoint D xs n = xs := by
  simp only [NthPoint]
  rw [if_pos h]

lemma RadialDistance_invalid {D : ℕ} {xs : List ℚ} {tol : ℚ}
    (h : xs.length % D ≠ 0 ∨ (if D = 0 then 0 else xs.length / D) < 2 ∨ tol * tol = 0) :
    RadialDistance D xs tol = xs := by
  simp only [RadialDistance]
  rw [if_pos h]

lemma PerpendicularDistance_invalid {D : ℕ} {xs : List ℚ} {tol : ℚ}
    (h : xs.length % D ≠ 0 ∨ (if D = 0 then 0 else xs.length / D) < 3 ∨ tol * tol = 0) :
    PerpendicularDistance D xs tol = xs := by
  simp only [PerpendicularDistance]
  rw [if_pos h]

lemma PerpendicularDistanceRepeat_invalid {D : ℕ} {xs : List ℚ} {tol : ℚ} (rep : ℕ)
    (h : xs.length % D ≠ 0 ∨ (if D = 0 then 0 else xs.length / D) < 3 ∨ tol * tol = 0) :
    PerpendicularDistanceRepeat D xs tol rep = xs := by
  have hpd : PerpendicularDistance D xs tol = xs := PerpendicularDistance_invalid h
  simp only [PerpendicularDistanceRepeat]
  rcases rep with _ | _ | r
  · simp
  · simpa using hpd
  · simp only [hpd]
    simp

lemma PerpendicularDistanceRepeat_zero {D : ℕ} {xs : List ℚ} {tol : ℚ} :
    PerpendicularDistanceRepeat D xs tol 0 = xs := by
  simp [PerpendicularDistanceRepeat]

lemma ReumannWitkam_invalid {D : ℕ} {xs : List ℚ} {tol : ℚ}
    (h : xs.length % D ≠ 0 ∨ (if D = 0 then 0 else xs.length / D) < 3 ∨ tol * tol = 0) :
    ReumannWitkam D xs tol = xs := by
  simp only [ReumannWitkam]
  rw [if_pos h]

lemma Opheim_invalid {D : ℕ} {xs : List ℚ} {minTol maxTol : ℚ}
    (h : xs.length % D ≠ 0 ∨ (if D = 0 then 0 else xs.length / D) < 2 ∨
      minTol * minTol = 0 ∨ maxTol * maxTol = 0) :
    Opheim D xs minTol maxTol = xs := by
  simp only [Opheim]
  rw [if_pos h]

lemma DouglasPeucker_invalid {D : ℕ} {xs : List ℚ} {tol : ℚ}
    (h : xs.length % D ≠ 0 ∨ (if D = 0 then 0 else xs.length / D) < 2 ∨ tol = 0) :
    DouglasPeucker D xs tol = xs := by
  simp only [DouglasPeucker]
  rw [if_pos h]

lemma DouglasPeuckerAlt_invalid {D count : ℕ} {xs : List ℚ}
    (h : xs.length % D ≠ 0 ∨ (if D = 0 then 0 else xs.length / D) ≤ count ∨ count < 2) :
    DouglasPeuckerAlt D xs count = xs := by
  simp only [DouglasPeuckerAlt]
  rw [if_pos h]

/-- C1.  For every simplification routine (`NthPoint`, `RadialDistance`,
`PerpendicularDistance` — single pass and repeated —, `ReumannWitkam`,
`Opheim`, `DouglasPeucker`, `DouglasPeuckerAlt`) and every malformed input
(coordinate count not a multiple of `DIM`, fewer points than the routine's
minimum, zero tolerance, `n < 2`, invalid `count`, `repeat < 1`), the routine
copies the entire input coordinate sequence verbatim to the output. -/
theorem fallback_copies_input_verbatim (D n rep count : ℕ) (xs : List ℚ)
    (tol minTol maxTol : ℚ) :
    (xs.length % D ≠ 0 ∨ (if D = 0 then 0 else xs.length / D) < 2 ∨ n < 2 →
      NthPoint D xs n = xs) ∧
    (xs.length % D ≠ 0 ∨ (if D = 0 then 0 else xs.length / D) < 2 ∨ tol = 0 →
      RadialDistance D xs tol = xs) ∧
    (xs.length % D ≠ 0 ∨ (if D = 0 then 0 else xs.length / D) < 3 ∨ tol = 0 →
      PerpendicularDistance D xs tol = xs) ∧
    (xs.length % D ≠ 0 ∨ (if D = 0 then 0 else xs.length / D) < 3 ∨ tol = 0 ∨ rep < 1 →
      PerpendicularDistanceRepeat D xs tol rep = xs) ∧
    (xs.length % D ≠ 0 ∨ (if D = 0 then 0 else xs.length / D) < 3 ∨ tol = 0 →
      ReumannWitkam D xs tol = xs) ∧
    (xs.length % D ≠ 0 ∨ (if D = 0 then 0 else xs.length / D) < 2 ∨
        minTol = 0 ∨ maxTol = 0 →
      Opheim D xs minTol maxTol = xs) ∧
    (xs.length % D ≠ 0 ∨ (if D = 0 then 0 else xs.length / D) < 2 ∨ tol = 0 →
      DouglasPeucker D xs tol = xs) ∧
    (xs.length % D ≠ 0 ∨ (if D = 0 then 0 else xs.length / D) ≤ count ∨ count < 2 →
      DouglasPeuckerAlt D xs count = xs) := by
  have hsq : ∀ t : ℚ, t = 0 → t * t = 0 := by intro t ht; rw [ht]; ring
  refine ⟨fun h => NthPoint_invalid h,
    fun h => RadialDistance_invalid ?_,
    fun h => PerpendicularDistance_invalid ?_,
    fun h => ?_,
    fun h => ReumannWitkam_invalid ?_,
    fun h => Opheim_invalid ?_,
    fun h => DouglasPeucker_invalid h,
    fun h => DouglasPeuckerAlt_invalid h⟩
  · rcases h with h | h | h
    · exact Or.inl h
    · exact Or.inr (Or.inl h)
    · exact Or.inr (Or.inr (hsq _ h))
  · rcases h with h | h | h
    · exact Or.inl h
    · exact Or.inr (Or.inl h)
    · exact Or.inr (Or.inr (hsq _ h))
  · rcases h with h | h | h | h
    · exact PerpendicularDistanceRepeat_invalid rep (Or.inl h)
    · exact PerpendicularDistanceRepeat_invalid rep (Or.inr (Or.inl h))
    · exact PerpendicularDistanceRepeat_invalid rep (Or.inr (Or.inr (hsq _ h)))
    · interval_cases rep
      exact PerpendicularDistanceRepeat_zero
  · rcases h with h | h | h
    · exact Or.inl h
    · exact Or.inr (Or.inl h)
    · exact Or.inr (Or.inr (hsq _ h))
  · rcases h with h | h | h | h
    · exact Or.inl h
    · exact Or.inr (Or.inl h)
    · exact Or.inr (Or.inr (Or.inl (hsq _ h)))
    · exact Or.inr (Or.inr (Or.inr (hsq _ h)))

/-- Witness for C1: a buffer of 3 coordinates is malformed for `DIM = 2`
(and `n = count = 1`, `tol = 0`, `repeat = 0` are malformed parameters),
so every routine copies it verbatim. -/
theorem fallback_copies_input_verbatim_witness :
    NthPoint 2 [0, 1, 2] 1 = [0, 1, 2] ∧
    RadialDistance 2 [0, 1, 2] 0 = [0, 1, 2] ∧
    PerpendicularDistance 2 [0, 1, 2] 0 = [0, 1, 2] ∧
    PerpendicularDistanceRepeat 2 [0, 1, 2] 0 0 = [0, 1, 2] ∧
    ReumannWitkam 2 [0, 1, 2] 0 = [0, 1, 2] ∧
    Opheim 2 [0, 1, 2] 0 0 = [0, 1, 2] ∧
    DouglasPeucker 2 [0, 1, 2] 0 = [0, 1, 2] ∧
    DouglasPeuckerAlt 2 [0, 1, 2] 1 = [0, 1, 2] := by
  obtain ⟨h1, h2, h3, h4, h5, h6, h7, h8⟩ :=
    fallback_copies_input_verbatim 2 1 0 1 [0, 1, 2] 0 0 0
  exact ⟨h1 (by decide), h2 (by decide), h3 (by decide), h4 (by decide),
    h5 (by decide), h6 (by decide), h7 (by decide), h8 (by decide)⟩

/-! ### Claim-side variant of the Opheim ray definition

The spec asserts that the first point at or beyond `minTol` of the key itself
becomes the second point of the ray.  `opRecClaim` renders that wording; the
source instead takes the previous point (`r1 = pi`, psimpl.h line 900). -/

/-- The Opheim scan as the claim words it: identical to `opRec` except that
the point that triggers the ray definition (`pj`) becomes the ray's second
point, rather than the previous point. -/
def opRecClaim (minTol2 maxTol2 : ℚ) (r0 r1 : Pt) (rayDef : Bool) (cur : Pt) :
    List Pt → List Pt
  | [] => [cur]
  | pj :: ys =>
    if rayDef = false ∧ point_distance2 r0 pj < minTol2 then
      opRecClaim minTol2 maxTol2 r0 r1 false pj ys
    else
      let r1n := if rayDef then r1 else pj
      if point_distance2 r0 pj < maxTol2 ∧ ray_distance2 r0 r1n pj < minTol2 then
        opRecClaim minTol2 maxTol2 r0 r1n true pj ys
      else
        cur :: opRecClaim minTol2 maxTol2 cur r1n false pj ys

/-- `Opheim` with the claim's ray definition substituted. -/
def OpheimClaim (D : ℕ) (xs : List ℚ) (minTol maxTol : ℚ) : List ℚ :=
  let coordCount := xs.length
  let pointCount := if D = 0 then 0 else coordCount / D
  let minTol2 := minTol * minTol
  let maxTol2 := maxTol * maxTol
  if coordCount % D ≠ 0 ∨ pointCount < 2 ∨ minTol2 = 0 ∨ maxTol2 = 0 then xs
  else
    match toPoints D xs with
    | p0 :: p1 :: rest => (p0 :: opRecClaim minTol2 maxTol2 p0 p0 false p1 rest).flatten
    | _ => xs

/-- C7 counterexample.  On the 2-D polyline
`(0,0), (1/2,0), (1,1), (2,2), (3,0)` with `minTol = 1`, `maxTol = 100`, the
point `(1,1)` is the first one at or beyond `minTol` of the key `(0,0)`; the
source defines the ray through the previous point `(1/2,0)` and consequently
keeps `(1/2,0)` as a key, whereas the claim's reading (ray through `(1,1)`)
would not, so the two disagree. -/
theorem opheim_ray_from_trigger_counterexample :
    Opheim 2 [0, 0, 1/2, 0, 1, 1, 2, 2, 3, 0] 1 100 =
      [0, 0, 1/2, 0, 2, 2, 3, 0] ∧
    OpheimClaim 2 [0, 0, 1/2, 0, 1, 1, 2, 2, 3, 0] 1 100 =
      [0, 0, 2, 2, 3, 0] ∧
    Opheim 2 [0, 0, 1/2, 0, 1, 1, 2, 2, 3, 0] 1 100 ≠
      OpheimClaim 2 [0, 0, 1/2, 0, 1, 1, 2, 2, 3, 0] 1 100 := by
  refine ⟨by decide, by decide, by decide⟩

/-- C7 as amended.  While no ray is defined from the current key `r0`, a
point `pj` with squared radial distance below `minTol2` is absorbed without
defining the ray; the first point at or beyond `minTol` triggers the ray
definition, but the ray's second point is the PREVIOUS point `cur` (the last
absorbed point, or the key's successor when none was absorbed), after which
`pj` is tested against that ray. -/
theorem opheim_ray_step (m M : ℚ) (r0 r1 cur pj : Pt) (ys : List Pt) :
    (point_distance2 r0 pj < m →
      opRec m M r0 r1 false cur (pj :: ys) = opRec m M r0 r1 false pj ys) ∧
    (¬ point_distance2 r0 pj < m →
      opRec m M r0 r1 false cur (pj :: ys) =
        if point_distance2 r0 pj < M ∧ ray_distance2 r0 cur pj < m then
          opRec m M r0 cur true pj ys
        else
          cur :: opRec m M cur cur false pj ys) := by
  constructor
  · intro h
    rw [opRec]
    rw [if_pos ⟨rfl, h⟩]
  · intro h
    rw [opRec]
    rw [if_neg (by simp [h])]
    simp only [Bool.false_eq_true, if_false]

/-- Witness for the amended C7: with key `(0,0)`, previous point `(1/2,0)`
and `minTol2 = 1`, the point `(1/4,0)` (distance `1/16 < 1`) is absorbed,
and the point `(1,1)` (distance `2 ≥ 1`) triggers a ray through the previous
point. -/
theorem opheim_ray_step_witness :
    opRec 1 100 [0, 0] [0, 0] false [1/2, 0] [[1/4, 0]] =
      opRec 1 100 [0, 0] [0, 0] false [1/4, 0] [] ∧
    opRec 1 100 [0, 0] [0, 0] false [1/2, 0] [[1, 1]] =
      (if point_distance2 [0, 0] [1, 1] < 100 ∧
          ray_distance2 [0, 0] [1/2, 0] [1, 1] < 1 then
        opRec 1 100 [0, 0] [1/2, 0] true [1, 1] []
      else
        [1/2, 0] :: opRec 1 100 [1/2, 0] [1/2, 0] false [1, 1] []) := by
  constructor
  · exact (opheim_ray_step 1 100 [0, 0] [0, 0] [1/2, 0] [1/4, 0] []).1 (by decide)
  · exact (opheim_ray_step 1 100 [0, 0] [0, 0] [1/2, 0] [1, 1] []).2 (by decide)

/-- C5 counterexample.  For `DIM = 1`, coordinates `[0, 1, 1, 0]` and the
sub-range with offsets `0 .. 3`, both interior points (offsets 1 and 2) attain
the maximal squared segment distance `1`, yet `FindKey` returns offset `2`,
the LAST maximizer, not the first: the scan skips only strictly smaller
distances, so a tie replaces the stored key. -/
theorem findKey_first_maximizer_counterexample :
    segment_distance2 (pointAt 1 [0, 1, 1, 0] 0) (pointAt 1 [0, 1, 1, 0] 3)
        (pointAt 1 [0, 1, 1, 0] 1) = 1 ∧
    segment_distance2 (pointAt 1 [0, 1, 1, 0] 0) (pointAt 1 [0, 1, 1, 0] 3)
        (pointAt 1 [0, 1, 1, 0] 2) = 1 ∧
    FindKey 1 [0, 1, 1, 0] 0 3 = ⟨2, 1⟩ := by
  refine ⟨by decide, by decide, by decide⟩

/-- C6.  `FindKey`'s own documentation promises to return `last` when no key
exists, and `ApproximateAlt` relies on `index == last` to detect it; but on a
sub-range with no interior point (here `DIM = 1`, offsets `0 .. 1`) `FindKey`
returns the default-constructed `KeyInfo {0, 0}`, whose index `0` differs
from `last = 1`. -/
theorem findKey_no_interior_returns_default :
    List.range' (0 + 1) ((1 - (0 + 1) + (1 - 1)) / 1) 1 = ([] : List ℕ) ∧
    FindKey 1 [0, 0] 0 1 = ⟨0, 0⟩ ∧ (0 : ℕ) ≠ 1 := by
  refine ⟨by decide, by decide, by decide⟩

/-- C4 counterexample.  `DIM = 1`, input `[0, 5, 0, 0, 0]` (5 points, well
formed), target count `4` with `2 ≤ 4 < 5`: after the key at offset 1 is
added, the degenerate sub-polyline `(0, 1)` carries the default key
`{index 0, dist2 0}`; `index ≠ last` lets it pass for a valid key, so the key
count is incremented without marking a new point and the loop stops at 3
output points instead of 4. -/
theorem douglasPeuckerAlt_count_counterexample :
    ([0, 5, 0, 0, 0] : List ℚ).length % 1 = 0 ∧
    ([0, 5, 0, 0, 0] : List ℚ).length / 1 = 5 ∧
    DouglasPeuckerAlt 1 [0, 5, 0, 0, 0] 4 = [0, 5, 0] ∧
    (DouglasPeuckerAlt 1 [0, 5, 0, 0, 0] 4).length ≠ 4 * 1 := by
  refine ⟨by decide, by decide, by decide, by decide⟩

/-- C10 counterexample.  `DIM = 1`, original `[0, 1, 2]`, simplification
`[0, 1]`: every simplification point occurs verbatim in the original, the
validity flag is reported `true`, yet only 2 squared errors are written for
the 3 original points — the scan stops at the original position matching the
simplification's last point, which here is not the last original point. -/
theorem cpe_one_error_per_point_counterexample :
    ComputePositionalErrors2 1 [0, 1, 2] [0, 1] = ([0, 0], true) ∧
    (ComputePositionalErrors2 1 [0, 1, 2] [0, 1]).1.length = 2 ∧
    ([0, 1, 2] : List ℚ).length / 1 = 3 ∧ (2 : ℕ) ≠ 3 := by
  refine ⟨by decide, by decide, by decide, by decide⟩

/-! ### Chunk toolbox: facts about `toPoints`, `maskFilter` and sublists -/

lemma toPoints_induction {motive : List ℚ → Prop}
    (h0 : motive [])
    (hstep : ∀ xs : List ℚ, xs ≠ [] → motive (xs.drop D) → motive xs)
    (hD : D ≠ 0) : ∀ xs : List ℚ, motive xs := by
  intro xs
  generalize hn : xs.length = n
  induction n using Nat.strong_induction_on generalizing xs with
  | _ n ih =>
    match xs with
    | [] => exact h0
    | x :: xs =>
      refine hstep _ (by simp) (ih ((x :: xs).drop D).length ?_ _ rfl)
      have : 0 < D := Nat.pos_of_ne_zero hD
      simp only [← hn, List.length_drop, List.length_cons]
      omega

lemma toPoints_nil (D : ℕ) : toPoints D [] = [] := by
  rw [toPoints_eq]; simp

lemma sub_self_mod {D n : ℕ} (hD : D ≠ 0) (h : n % D = 0) : (n - D) % D = 0 := by
  exact Nat.mod_eq_zero_of_dvd
    (Nat.dvd_sub' (Nat.dvd_of_mod_eq_zero h) dvd_rfl)

lemma length_mem_toPoints {D : ℕ} (hD : D ≠ 0) :
    ∀ (xs : List ℚ), xs.length % D = 0 → ∀ p ∈ toPoints D xs, p.length = D := by
  intro xs
  induction xs using toPoints_induction (D := D) with
  | h0 => simp [toPoints_nil]
  | hstep xs hne ih =>
    intro hmod
    have hpos : 0 < D := Nat.pos_of_ne_zero hD
    have hxs : 0 < xs.length := List.length_pos.mpr hne
    have hDle : D ≤ xs.length := by
      rcases Nat.lt_or_ge xs.length D with h | h
      · rw [Nat.mod_eq_of_lt h] at hmod; omega
      · exact h
    rw [toPoints_eq]
    simp only [hD, hne, false_or, or_self, if_false, List.mem_cons]
    rintro p (rfl | hp)
    · simp only [List.length_take]
      omega
    · refine ih ?_ p hp
      simp only [List.length_drop]
      exact sub_self_mod hD hmod
  | hD => exact hD

lemma length_mem_toPoints_le {D : ℕ} (xs : List ℚ) :
    ∀ p ∈ toPoints D xs, p.length ≤ D := by
  by_cases hD : D = 0
  · rw [toPoints, if_pos hD]
    simp
  · induction xs using toPoints_induction (D := D) with
    | h0 => simp [toPoints_nil]
    | hstep xs hne ih =>
      rw [toPoints_eq]
      simp only [hD, hne, false_or, or_self, if_false, List.mem_cons]
      rintro p (rfl | hp)
      · simp [List.length_take]
      · exact ih p hp
    | hD => exact hD

lemma flatten_toPoints {D : ℕ} (hD : D ≠ 0) :
    ∀ xs : List ℚ, (toPoints D xs).flatten = xs := by
  intro xs
  induction xs using toPoints_induction (D := D) with
  | h0 => simp [toPoints_nil]
  | hstep xs hne ih =>
    rw [toPoints_eq]
    simp only [hD, hne, false_or, or_self, if_false, List.flatten_cons, ih,
      List.take_append_drop]
  | hD => exact hD

lemma toPoints_flatten {D : ℕ} (hD : D ≠ 0) :
    ∀ l : List Pt, (∀ p ∈ l, p.length = D) → toPoints D l.flatten = l := by
  intro l
  induction l with
  | nil => simp [toPoints_nil]
  | cons c cs ih =>
    intro h
    have hc : c.length = D := h c (by simp)
    rw [toPoints_eq]
    have hne : (c :: cs).flatten ≠ [] := by
      simp only [List.flatten_cons]
      intro hcon
      have := congrArg List.length hcon
      simp only [List.length_append, List.length_nil, Nat.add_eq_zero, hc] at this
      exact hD this.1
    simp only [hD, hne, false_or, or_self, if_false, List.flatten_cons]
    rw [← hc, List.take_left, List.drop_left, hc,
      ih (fun p hp => h p (by simp [hp]))]
    rw [if_neg (by simpa [List.flatten_cons] using hne)]

lemma toPoints_length {D : ℕ} (hD : D ≠ 0) :
    ∀ (xs : List ℚ), xs.length % D = 0 → (toPoints D xs).length = xs.length / D := by
  intro xs
  induction xs using toPoints_induction (D := D) with
  | h0 => simp [toPoints_nil]
  | hstep xs hne ih =>
    intro hmod
    have hpos : 0 < D := Nat.pos_of_ne_zero hD
    have hxs : 0 < xs.length := List.length_pos.mpr hne
    have hDle : D ≤ xs.length := by
      rcases Nat.lt_or_ge xs.length D with h | h
      · rw [Nat.mod_eq_of_lt h] at hmod; omega
      · exact h
    have hmod2 : (xs.drop D).length % D = 0 := by
      simp only [List.length_drop]
      exact sub_self_mod hD hmod
    rw [toPoints_eq]
    simp only [hD, hne, false_or, or_self, if_false, List.length_cons]
    rw [ih hmod2]
    simp only [List.length_drop]
    obtain ⟨q, hq⟩ : D ∣ xs.length := Nat.dvd_of_mod_eq_zero hmod
    rw [hq]
    have h2 : D * q - D = D * (q - 1) := by
      rcases q with _ | q2
      · simp
      · simp [Nat.mul_succ, Nat.succ_sub_one]
    rw [h2, Nat.mul_div_cancel_left _ hpos, Nat.mul_div_cancel_left _ hpos]
    have hq1 : 1 ≤ q := by
      rcases Nat.eq_zero_or_pos q with rfl | h
      · rw [hq] at hxs; simp at hxs
      · exact h
    omega
  | hD => exact hD

lemma maskFilter_nil_left (cs : List Pt) : maskFilter [] cs = [] := rfl

lemma maskFilter_nil_right (b : Bool) (bs : List Bool) : maskFilter (b :: bs) [] = [] := rfl

lemma maskFilter_cons (b : Bool) (bs : List Bool) (c : Pt) (cs : List Pt) :
    maskFilter (b :: bs) (c :: cs) =
      if b then c :: maskFilter bs cs else maskFilter bs cs := rfl

lemma map_getD_sublist :
    ∀ (l : List Pt) (is : List ℕ), is.Pairwise (· < ·) →
      (∀ i ∈ is, i < l.length) → is.map (fun i => l.getD i []) <+ l := by
  intro l
  induction l with
  | nil =>
    intro is _ hb
    match is with
    | [] => exact List.nil_sublist _
    | i :: is => exact absurd (hb i (by simp)) (by simp)
  | cons c l ih =>
    intro is hp hb
    match is with
    | [] => exact List.nil_sublist _
    | 0 :: is =>
      have hlt : ∀ j ∈ is, 0 < j := (List.pairwise_cons.mp hp).1
      have htail : is.map (fun j => (c :: l).getD j []) =
          (is.map (fun j => j - 1)).map (fun j => l.getD j []) := by
        rw [List.map_map]
        refine List.map_congr_left fun j hj => ?_
        have h0 : 0 < j := hlt j hj
        simp only [Function.comp]
        match j, h0 with
        | j + 1, _ => simp [List.getD_cons_succ]
      simp only [List.map_cons, List.getD_cons_zero]
      refine List.Sublist.cons₂ _ ?_
      rw [htail]
      refine ih _ ?_ ?_
      · rw [List.pairwise_map]
        refine ((List.pairwise_cons.mp hp).2).imp_of_mem fun ha hbm hab => ?_
        have := hlt _ ha
        omega
      · intro j hj
        simp only [List.mem_map] at hj
        obtain ⟨j0, hj0, rfl⟩ := hj
        have h1 := hb j0 (by simp [hj0])
        have h2 := hlt j0 hj0
        simp only [List.length_cons] at h1
        omega
    | (i + 1) :: is =>
      have hlt : ∀ j ∈ is, i + 1 < j := (List.pairwise_cons.mp hp).1
      have hall : ((i + 1) :: is).map (fun j => (c :: l).getD j []) =
          (((i + 1) :: is).map (fun j => j - 1)).map (fun j => l.getD j []) := by
        rw [List.map_map]
        refine List.map_congr_left fun j hj => ?_
        have h0 : 0 < j := by
          rcases List.mem_cons.mp hj with rfl | hj2
          · omega
          · have := hlt j hj2; omega
        simp only [Function.comp]
        match j, h0 with
        | j + 1, _ => simp [List.getD_cons_succ]
      rw [hall]
      refine List.Sublist.cons _ ?_
      refine ih _ ?_ ?_
      · rw [List.pairwise_map]
        refine hp.imp_of_mem fun ha hbm hab => ?_
        rename_i a b
        have hpos : 0 < a := by
          rcases List.mem_cons.mp ha with rfl | ha2
          · omega
          · have := hlt _ ha2; omega
        omega
      · intro j hj
        simp only [List.mem_map, List.mem_cons] at hj
        obtain ⟨j0, hj0, rfl⟩ := hj
        have h1 : j0 < (c :: l).length := by
          rcases hj0 with rfl | hj2
          · exact hb _ (by simp)
          · exact hb _ (by simp [hj2])
        have h2 : 0 < j0 := by
          rcases hj0 with rfl | hj2
          · omega
          · have := hlt _ hj2; omega
        simp only [List.length_cons] at h1
        omega

lemma maskFilter_sublist : ∀ (bs : List Bool) (cs : List Pt), maskFilter bs cs <+ cs := by
  intro bs
  induction bs with
  | nil => intro cs; rw [maskFilter_nil_left]; exact List.nil_sublist _
  | cons b bs ih =>
    intro cs
    match cs with
    | [] => rw [maskFilter_nil_right]
    | c :: cs =>
      rw [maskFilter_cons]
      by_cases hb : b
      · simp only [hb, if_true]
        exact List.Sublist.cons₂ _ (ih cs)
      · simp only [hb, if_false]
        exact List.Sublist.cons _ (ih cs)

lemma maskFilter_length_le : ∀ (bs : List Bool) (cs : List Pt),
    (maskFilter bs cs).length ≤ bs.count true := by
  intro bs
  induction bs with
  | nil => intro cs; rw [maskFilter_nil_left]; simp
  | cons b bs ih =>
    intro cs
    have hcount : (b :: bs).count true = bs.count true + if b then 1 else 0 := by
      rcases b with _ | _ <;> simp [List.count_cons]
    match cs with
    | [] =>
      rw [maskFilter_nil_right]
      simp
    | c :: cs =>
      rw [maskFilter_cons, hcount]
      have := ih cs
      rcases b with _ | _
      · simp only [Bool.false_eq_true, if_false]
        omega
      · simp only [if_true, List.length_cons]
        omega


lemma rdRec_sublist (tol2 : ℚ) : ∀ (l : List Pt) (c : Pt), rdRec tol2 c l <+ l := by
  intro l
  induction l with
  | nil => intro c; rw [rdRec]
  | cons p ps ih =>
    intro c
    rw [rdRec]
    by_cases h : point_distance2 c p < tol2
    · simp only [h, if_true]
      exact List.Sublist.cons _ (ih c)
    · simp only [h, if_false]
      exact List.Sublist.cons₂ _ (ih p)

lemma pdRec_sublist_aux (tol2 : ℚ) :
    ∀ (n : ℕ) (l : List Pt), l.length ≤ n → ∀ p0, pdRec tol2 p0 l <+ l := by
  intro n
  induction n with
  | zero =>
    intro l hl p0
    match l, hl with
    | [], _ => rw [pdRec]
  | succ n ih =>
    intro l hl p0
    match l with
    | [] => rw [pdRec]
    | [p1] => rw [pdRec]
    | [p1, p2] =>
      rw [pdRec]
      by_cases h : segment_distance2 p0 p2 p1 < tol2
      · simp only [h, if_true]
        exact (List.Sublist.cons₂ _ (List.nil_sublist _)).cons _
      · simp only [h, if_false]
        refine List.Sublist.cons₂ _ ?_
        refine ih [p2] ?_ p1
        simp only [List.length_cons] at hl ⊢
        omega
    | p1 :: p2 :: r :: rs =>
      rw [pdRec]
      by_cases h : segment_distance2 p0 p2 p1 < tol2
      · simp only [h, if_true]
        refine List.Sublist.cons _ (List.Sublist.cons₂ _ ?_)
        refine ih (r :: rs) ?_ p2
        simp only [List.length_cons] at hl ⊢
        omega
      · simp only [h, if_false]
        refine List.Sublist.cons₂ _ ?_
        refine ih (p2 :: r :: rs) ?_ p1
        simp only [List.length_cons] at hl ⊢
        omega

lemma pdRec_sublist (tol2 : ℚ) (l : List Pt) (p0 : Pt) : pdRec tol2 p0 l <+ l :=
  pdRec_sublist_aux tol2 l.length l (le_refl _) p0

lemma rwRec_sublist (tol2 : ℚ) :
    ∀ (l : List Pt) (l0 l1 cur : Pt), rwRec tol2 l0 l1 cur l <+ cur :: l := by
  intro l
  induction l with
  | nil => intro l0 l1 cur; rw [rwRec]
  | cons pj ys ih =>
    intro l0 l1 cur
    rw [rwRec]
    by_cases h : line_distance2 l0 l1 pj < tol2
    · simp only [h, if_true]
      exact (ih l0 l1 pj).cons _
    · simp only [h, if_false]
      exact List.Sublist.cons₂ _ (ih cur pj pj)

lemma opRec_sublist (m M : ℚ) :
    ∀ (l : List Pt) (r0 r1 : Pt) (b : Bool) (cur : Pt),
      opRec m M r0 r1 b cur l <+ cur :: l := by
  intro l
  induction l with
  | nil => intro r0 r1 b cur; rw [opRec]
  | cons pj ys ih =>
    intro r0 r1 b cur
    rw [opRec]
    by_cases h : b = false ∧ point_distance2 r0 pj < m
    · simp only [if_pos h]
      exact (ih r0 r1 false pj).cons _
    · simp only [if_neg h]
      by_cases h2 : point_distance2 r0 pj < M ∧
          ray_distance2 r0 (if b then r1 else cur) pj < m
      · simp only [if_pos h2]
        exact (ih r0 _ true pj).cons _
      · simp only [if_neg h2]
        exact List.Sublist.cons₂ _ (ih cur _ false pj)

lemma getD_mem_of_lt {l : List Pt} {i : ℕ} (h : i < l.length) : l.getD i [] ∈ l := by
  rw [List.getD_eq_getElem?_getD, List.getElem?_eq_getElem h]
  exact List.getElem_mem h

/-! ### The subsequence property, routine by routine -/

lemma NthPoint_points_sublist (D n : ℕ) (xs : List ℚ) :
    toPoints D (NthPoint D xs n) <+ toPoints D xs := by
  rw [NthPoint]
  by_cases hv : xs.length % D ≠ 0 ∨ (if D = 0 then 0 else xs.length / D) < 2 ∨ n < 2
  · rw [if_pos hv]
  · rw [if_neg hv]
    push_neg at hv
    obtain ⟨hmod, hpc, hn⟩ := hv
    have hD : D ≠ 0 := by
      intro h
      rw [if_pos h] at hpc
      omega
    rw [if_neg hD] at hpc
    simp only [if_neg hD]
    have hlen : (toPoints D xs).length = xs.length / D := toPoints_length hD xs hmod
    set ps := toPoints D xs with hps
    set pc := xs.length / D with hpc2
    set k := (pc - 1) / n with hk
    set r := pc - k * n - 1 with hr
    have hkn : k * n ≤ pc - 1 := by
      rw [hk]
      exact Nat.div_mul_le_self _ _
    have hmem : ∀ i ∈ (0 :: (List.range k).map (fun i => (i + 1) * n)
        ++ (if r ≠ 0 then [pc - 1] else [])), i < pc := by
      intro i hi
      rcases List.mem_cons.mp hi with rfl | hi
      · omega
      rcases List.mem_append.mp hi with hi | hi
      · obtain ⟨j, hj, rfl⟩ := List.mem_map.mp hi
        have hj2 : j < k := List.mem_range.mp hj
        have : (j + 1) * n ≤ k * n := Nat.mul_le_mul_right n (by omega)
        omega
      · rcases Decidable.em (r ≠ 0) with h | h
        · rw [if_pos h] at hi
          rcases List.mem_singleton.mp hi with rfl
          omega
        · rw [if_neg h] at hi
          exact absurd hi (List.not_mem_nil i)
    have hpair : (0 :: (List.range k).map (fun i => (i + 1) * n)
        ++ (if r ≠ 0 then [pc - 1] else [])).Pairwise (· < ·) := by
      refine List.pairwise_cons.mpr ⟨?_, ?_⟩
      · intro j hj
        rcases List.mem_append.mp hj with hj | hj
        · obtain ⟨i, _, rfl⟩ := List.mem_map.mp hj
          have : 1 * n ≤ (i + 1) * n := Nat.mul_le_mul_right n (by omega)
          omega
        · rcases Decidable.em (r ≠ 0) with h | h
          · rw [if_pos h] at hj
            rcases List.mem_singleton.mp hj with rfl
            omega
          · rw [if_neg h] at hj
            exact absurd hj (List.not_mem_nil j)
      · refine List.pairwise_append.mpr ⟨?_, ?_, ?_⟩
        · rw [List.pairwise_map]
          refine (List.pairwise_lt_range k).imp fun hab => ?_
          exact Nat.mul_lt_mul_of_lt_of_le (by omega) (le_refl n) (by omega)
        · rcases Decidable.em (r ≠ 0) with h | h
          · rw [if_pos h]
            exact List.pairwise_singleton _ _
          · rw [if_neg h]
            exact List.Pairwise.nil
        · intro a ha b hb
          obtain ⟨i, hik, rfl⟩ := List.mem_map.mp ha
          have hik2 : i < k := List.mem_range.mp hik
          rcases Decidable.em (r ≠ 0) with h | h
          · rw [if_pos h] at hb
            rcases List.mem_singleton.mp hb with rfl
            have : (i + 1) * n ≤ k * n := Nat.mul_le_mul_right n (by omega)
            omega
          · rw [if_neg h] at hb
            exact absurd hb (List.not_mem_nil b)
    have hsel : (ps.getD 0 [] :: (List.range k).map (fun i => ps.getD ((i + 1) * n) [])
        ++ if r ≠ 0 then [ps.getD (pc - 1) []] else [])
        = (0 :: (List.range k).map (fun i => (i + 1) * n)
            ++ (if r ≠ 0 then [pc - 1] else [])).map (fun i => ps.getD i []) := by
      simp only [List.map_cons, List.map_append, List.map_map, Function.comp]
      rw [apply_ite (List.map (fun i => ps.getD i []))]
      simp
    rw [hsel, toPoints_flatten hD]
    · exact map_getD_sublist ps _ hpair (by rw [hlen]; exact hmem)
    · intro p hp
      obtain ⟨i, hi, rfl⟩ := List.mem_map.mp hp
      exact length_mem_toPoints hD xs hmod _ (getD_mem_of_lt (hlen ▸ hmem i hi))

lemma getLastD_eq_getLast {l : List Pt} (h : l ≠ []) : l.getLastD [] = l.getLast h := by
  rw [List.getLastD_eq_getLast?, List.getLast?_eq_getLast l h]
  rfl

lemma flatten_length_of_chunks {D : ℕ} {K : List Pt} (hall : ∀ p ∈ K, p.length = D) :
    K.flatten.length = K.length * D := by
  induction K with
  | nil => simp
  | cons c cs ih =>
    simp only [List.flatten_cons, List.length_append, List.length_cons]
    rw [hall c (by simp), ih (fun p hp => hall p (by simp [hp]))]
    ring

lemma points_of_flatten_sublist {D : ℕ} (hD : D ≠ 0) {xs : List ℚ}
    (hmod : xs.length % D = 0) {K : List Pt} (hs : K <+ toPoints D xs) :
    toPoints D K.flatten <+ toPoints D xs := by
  rw [toPoints_flatten hD _ (fun p hp => length_mem_toPoints hD xs hmod p (hs.subset hp))]
  exact hs

lemma RadialDistance_points_sublist (D : ℕ) (xs : List ℚ) (tol : ℚ) :
    toPoints D (RadialDistance D xs tol) <+ toPoints D xs := by
  rw [RadialDistance]
  by_cases hv : xs.length % D ≠ 0 ∨ (if D = 0 then 0 else xs.length / D) < 2 ∨
      tol * tol = 0
  · rw [if_pos hv]
  · rw [if_neg hv]
    push_neg at hv
    obtain ⟨hmod, hpc, _⟩ := hv
    have hD : D ≠ 0 := by
      intro h
      rw [if_pos h] at hpc
      omega
    rw [if_neg hD] at hpc
    have hlen : (toPoints D xs).length = xs.length / D := toPoints_length hD xs hmod
    match hps : toPoints D xs with
    | [] =>
      show toPoints D xs <+ ([] : List Pt)
      rw [hps]
    | p0 :: rest =>
      show toPoints D
        ((p0 :: rdRec (tol * tol) p0 rest.dropLast ++ [rest.getLastD []]).flatten)
        <+ p0 :: rest
      have hrest : rest ≠ [] := by
        intro h
        rw [hps, h] at hlen
        simp at hlen
        omega
      rw [← hps]
      refine points_of_flatten_sublist hD hmod ?_
      rw [hps]
      refine List.Sublist.cons₂ _ ?_
      rw [getLastD_eq_getLast hrest]
      calc rdRec (tol * tol) p0 rest.dropLast ++ [rest.getLast hrest]
          <+ rest.dropLast ++ [rest.getLast hrest] :=
            (rdRec_sublist _ _ _).append (List.Sublist.refl _)
        _ = rest := List.dropLast_append_getLast hrest

lemma PerpendicularDistance_points_sublist (D : ℕ) (xs : List ℚ) (tol : ℚ) :
    toPoints D (PerpendicularDistance D xs tol) <+ toPoints D xs := by
  rw [PerpendicularDistance]
  by_cases hv : xs.length % D ≠ 0 ∨ (if D = 0 then 0 else xs.length / D) < 3 ∨
      tol * tol = 0
  · rw [if_pos hv]
  · rw [if_neg hv]
    push_neg at hv
    obtain ⟨hmod, hpc, _⟩ := hv
    have hD : D ≠ 0 := by
      intro h
      rw [if_pos h] at hpc
      omega
    match hps : toPoints D xs with
    | [] =>
      show toPoints D xs <+ ([] : List Pt)
      rw [hps]
    | p0 :: rest =>
      show toPoints D ((p0 :: pdRec (tol * tol) p0 rest).flatten) <+ p0 :: rest
      rw [← hps]
      refine points_of_flatten_sublist hD hmod ?_
      rw [hps]
      exact List.Sublist.cons₂ _ (pdRec_sublist _ _ _)

lemma pdrRest_points_sublist (D : ℕ) (tol : ℚ) :
    ∀ (r : ℕ) (cur : List ℚ), toPoints D (pdrRest D tol r cur) <+ toPoints D cur := by
  intro r
  induction r with
  | zero => intro cur; rw [pdrRest]
  | succ r ih =>
    intro cur
    match r with
    | 0 => exact PerpendicularDistance_points_sublist D cur tol
    | r + 1 =>
      rw [pdrRest]
      by_cases h : (PerpendicularDistance D cur tol).length = cur.length
      · rw [if_pos h]
      · rw [if_neg h]
        exact (ih _).trans (PerpendicularDistance_points_sublist D cur tol)

lemma PerpendicularDistanceRepeat_points_sublist (D : ℕ) (xs : List ℚ) (tol : ℚ) (rep : ℕ) :
    toPoints D (PerpendicularDistanceRepeat D xs tol rep) <+ toPoints D xs := by
  rw [PerpendicularDistanceRepeat]
  by_cases h1 : rep = 1
  · rw [if_pos h1]
    exact PerpendicularDistance_points_sublist D xs tol
  · rw [if_neg h1]
    by_cases h0 : rep < 1
    · rw [if_pos h0]
    · rw [if_neg h0]
      by_cases h : (PerpendicularDistance D xs tol).length = xs.length
      · simp only [if_pos h]
        exact PerpendicularDistance_points_sublist D xs tol
      · simp only [if_neg h]
        exact (pdrRest_points_sublist D tol _ _).trans
          (PerpendicularDistance_points_sublist D xs tol)

lemma ReumannWitkam_points_sublist (D : ℕ) (xs : List ℚ) (tol : ℚ) :
    toPoints D (ReumannWitkam D xs tol) <+ toPoints D xs := by
  rw [ReumannWitkam]
  by_cases hv : xs.length % D ≠ 0 ∨ (if D = 0 then 0 else xs.length / D) < 3 ∨
      tol * tol = 0
  · rw [if_pos hv]
  · rw [if_neg hv]
    push_neg at hv
    obtain ⟨hmod, hpc, _⟩ := hv
    have hD : D ≠ 0 := by
      intro h
      rw [if_pos h] at hpc
      omega
    match hps : toPoints D xs with
    | [] =>
      show toPoints D xs <+ ([] : List Pt)
      rw [hps]
    | [p0] =>
      show toPoints D xs <+ [p0]
      rw [hps]
    | p0 :: p1 :: rest =>
      show toPoints D ((p0 :: rwRec (tol * tol) p0 p1 p1 rest).flatten)
        <+ p0 :: p1 :: rest
      rw [← hps]
      refine points_of_flatten_sublist hD hmod ?_
      rw [hps]
      exact List.Sublist.cons₂ _ (rwRec_sublist _ _ _ _ _)

lemma Opheim_points_sublist (D : ℕ) (xs : List ℚ) (minTol maxTol : ℚ) :
    toPoints D (Opheim D xs minTol maxTol) <+ toPoints D xs := by
  rw [Opheim]
  by_cases hv : xs.length % D ≠ 0 ∨ (if D = 0 then 0 else xs.length / D) < 2 ∨
      minTol * minTol = 0 ∨ maxTol * maxTol = 0
  · rw [if_pos hv]
  · rw [if_neg hv]
    push_neg at hv
    obtain ⟨hmod, hpc, _⟩ := hv
    have hD : D ≠ 0 := by
      intro h
      rw [if_pos h] at hpc
      omega
    match hps : toPoints D xs with
    | [] =>
      show toPoints D xs <+ ([] : List Pt)
      rw [hps]
    | [p0] =>
      show toPoints D xs <+ [p0]
      rw [hps]
    | p0 :: p1 :: rest =>
      show toPoints D
        ((p0 :: opRec (minTol * minTol) (maxTol * maxTol) p0 p0 false p1 rest).flatten)
        <+ p0 :: p1 :: rest
      rw [← hps]
      refine points_of_flatten_sublist hD hmod ?_
      rw [hps]
      exact List.Sublist.cons₂ _ (opRec_sublist _ _ _ _ _ _ _)

lemma RadialDistance_length_mod {D : ℕ} (hD : D ≠ 0) {xs : List ℚ}
    (hmod : xs.length % D = 0) (tol : ℚ) :
    (RadialDistance D xs tol).length % D = 0 := by
  have hs := RadialDistance_points_sublist D xs tol
  have hall : ∀ p ∈ toPoints D (RadialDistance D xs tol), p.length = D := by
    intro p hp
    exact length_mem_toPoints hD xs hmod p (hs.subset hp)
  have : (toPoints D (RadialDistance D xs tol)).flatten = RadialDistance D xs tol :=
    flatten_toPoints hD _
  rw [← this, flatten_length_of_chunks hall]
  simp [Nat.mul_mod_left]

lemma DouglasPeucker_points_sublist (D : ℕ) (xs : List ℚ) (tol : ℚ) :
    toPoints D (DouglasPeucker D xs tol) <+ toPoints D xs := by
  rw [DouglasPeucker]
  by_cases hv : xs.length % D ≠ 0 ∨ (if D = 0 then 0 else xs.length / D) < 2 ∨ tol = 0
  · rw [if_pos hv]
  · rw [if_neg hv]
    push_neg at hv
    obtain ⟨hmod, hpc, _⟩ := hv
    have hD : D ≠ 0 := by
      intro h
      rw [if_pos h] at hpc
      omega
    have hmodr : (RadialDistance D xs tol).length % D = 0 :=
      RadialDistance_length_mod hD hmod tol
    have hsub : maskFilter (Approximate D (RadialDistance D xs tol) tol)
        (toPoints D (RadialDistance D xs tol)) <+ toPoints D (RadialDistance D xs tol) :=
      maskFilter_sublist _ _
    have h1 : toPoints D (maskFilter (Approximate D (RadialDistance D xs tol) tol)
        (toPoints D (RadialDistance D xs tol))).flatten <+
        toPoints D (RadialDistance D xs tol) :=
      points_of_flatten_sublist hD hmodr hsub
    exact h1.trans (RadialDistance_points_sublist D xs tol)

lemma DouglasPeuckerAlt_points_sublist (D count : ℕ) (xs : List ℚ) :
    toPoints D (DouglasPeuckerAlt D xs count) <+ toPoints D xs := by
  rw [DouglasPeuckerAlt]
  by_cases hv : xs.length % D ≠ 0 ∨ (if D = 0 then 0 else xs.length / D) ≤ count ∨
      count < 2
  · rw [if_pos hv]
  · rw [if_neg hv]
    push_neg at hv
    obtain ⟨hmod, hpc, hc⟩ := hv
    have hD : D ≠ 0 := by
      intro h
      rw [if_pos h] at hpc
      omega
    exact points_of_flatten_sublist hD hmod (maskFilter_sublist _ _)

/-- C3.  For every simplification routine and every input, each point of the
output is coordinate-for-coordinate one of the input's points and the output
points appear in the input's order: the `DIM`-chunks of the output form a
sublist of the `DIM`-chunks of the input (on malformed input the output IS
the input).  No interpolated coordinate is ever written. -/
theorem output_points_subsequence_of_input (D n rep count : ℕ) (xs : List ℚ)
    (tol minTol maxTol : ℚ) :
    toPoints D (NthPoint D xs n) <+ toPoints D xs ∧
    toPoints D (RadialDistance D xs tol) <+ toPoints D xs ∧
    toPoints D (PerpendicularDistance D xs tol) <+ toPoints D xs ∧
    toPoints D (PerpendicularDistanceRepeat D xs tol rep) <+ toPoints D xs ∧
    toPoints D (ReumannWitkam D xs tol) <+ toPoints D xs ∧
    toPoints D (Opheim D xs minTol maxTol) <+ toPoints D xs ∧
    toPoints D (DouglasPeucker D xs tol) <+ toPoints D xs ∧
    toPoints D (DouglasPeuckerAlt D xs count) <+ toPoints D xs :=
  ⟨NthPoint_points_sublist D n xs,
   RadialDistance_points_sublist D xs tol,
   PerpendicularDistance_points_sublist D xs tol,
   PerpendicularDistanceRepeat_points_sublist D xs tol rep,
   ReumannWitkam_points_sublist D xs tol,
   Opheim_points_sublist D xs minTol maxTol,
   DouglasPeucker_points_sublist D xs tol,
   DouglasPeuckerAlt_points_sublist D count xs⟩

/-! ### Endpoint preservation: helpers -/

lemma flatten_take_head {D : ℕ} {K : List Pt} {c : Pt}
    (h : K.head? = some c) (hc : c.length = D) : K.flatten.take D = c := by
  match K, h with
  | c :: K, rfl =>
    simp only [List.flatten_cons]
    rw [← hc, List.take_left]

lemma flatten_getLast_drop {D : ℕ} {K : List Pt} {c : Pt}
    (h : K.getLast? = some c) (hc : c.length = D) :
    K.flatten.drop (K.flatten.length - D) = c := by
  have hne : K ≠ [] := by
    intro hcon
    rw [hcon] at h
    simp at h
  have hc2 : K.getLast hne = c := by
    have := List.getLast?_eq_getLast K hne
    rw [this] at h
    exact Option.some_injective _ h
  have hK : K = K.dropLast ++ [c] := by
    conv_lhs => rw [← List.dropLast_append_getLast hne]
    rw [hc2]
  rw [hK]
  simp only [List.flatten_append, List.flatten_cons, List.flatten_nil,
    List.append_nil, List.length_append]
  rw [hc, Nat.add_sub_cancel, List.drop_left]

lemma cons_getLast?_of_ne_nil {l : List Pt} (h : l ≠ []) (x : Pt) :
    (x :: l).getLast? = l.getLast? := by
  match l, h with
  | c :: cs, _ => exact List.getLast?_cons_cons

lemma toPoints_ne_nil {D : ℕ} (hD : D ≠ 0) {xs : List ℚ} (hne : xs ≠ []) :
    toPoints D xs ≠ [] := by
  rw [toPoints_eq]
  simp [hD, hne]

lemma toPoints_head? {D : ℕ} (hD : D ≠ 0) {xs : List ℚ} (hne : xs ≠ []) :
    (toPoints D xs).head? = some (xs.take D) := by
  rw [toPoints_eq]
  simp [hD, hne]

lemma toPoints_getLast? {D : ℕ} (hD : D ≠ 0) :
    ∀ (xs : List ℚ), xs.length % D = 0 → xs ≠ [] →
      (toPoints D xs).getLast? = some (xs.drop (xs.length - D)) := by
  intro xs
  induction xs using toPoints_induction (D := D) with
  | h0 => intro _ h; exact absurd rfl h
  | hstep xs hne ih =>
    intro hmod _
    have hpos : 0 < D := Nat.pos_of_ne_zero hD
    have hxs : 0 < xs.length := List.length_pos.mpr hne
    have hDle : D ≤ xs.length := by
      rcases Nat.lt_or_ge xs.length D with h | h
      · rw [Nat.mod_eq_of_lt h] at hmod; omega
      · exact h
    rw [toPoints_eq]
    simp only [hD, hne, false_or, or_self, if_false]
    by_cases hdrop : xs.drop D = []
    · have hlen : xs.length = D := by
        have := congrArg List.length hdrop
        simp only [List.length_drop, List.length_nil] at this
        omega
      rw [hdrop, toPoints_nil]
      simp only [List.getLast?_singleton, hlen, Nat.sub_self, List.drop_zero]
      rw [List.take_of_length_le (by omega)]
    · have hlen2D : 2 * D ≤ xs.length := by
        have hdvd : D ∣ xs.length := Nat.dvd_of_mod_eq_zero hmod
        rcases hdvd with ⟨q, hq⟩
        have : 2 ≤ q := by
          by_contra hcon
          push_neg at hcon
          interval_cases q <;> simp_all <;> omega
        rw [hq]
        calc 2 * D = D * 2 := by ring
          _ ≤ D * q := Nat.mul_le_mul_left D this
      rw [cons_getLast?_of_ne_nil (toPoints_ne_nil hD hdrop) _]
      rw [ih (by simp only [List.length_drop]; exact sub_self_mod hD hmod) hdrop]
      rw [List.drop_drop]
      congr 2
      simp only [List.length_drop]
      omega
  | hD => exact hD

lemma getD_length_sub_one_eq_getLast? {l : List Pt} (h : l ≠ []) :
    l.getD (l.length - 1) [] = (l.getLast? ).getD [] := by
  rw [List.getD_eq_getElem?_getD, List.getLast?_eq_getElem?]

lemma rwRec_ne_nil (tol2 : ℚ) :
    ∀ (l : List Pt) (l0 l1 cur : Pt), rwRec tol2 l0 l1 cur l ≠ [] := by
  intro l
  induction l with
  | nil => intro l0 l1 cur; rw [rwRec]; simp
  | cons pj ys ih =>
    intro l0 l1 cur
    rw [rwRec]
    by_cases h : line_distance2 l0 l1 pj < tol2
    · simp only [h, if_true]
      exact ih l0 l1 pj
    · simp only [h, if_false]
      simp

lemma rwRec_getLast? (tol2 : ℚ) :
    ∀ (l : List Pt) (l0 l1 cur : Pt),
      (rwRec tol2 l0 l1 cur l).getLast? = (cur :: l).getLast? := by
  intro l
  induction l with
  | nil => intro l0 l1 cur; rw [rwRec]
  | cons pj ys ih =>
    intro l0 l1 cur
    rw [rwRec]
    by_cases h : line_distance2 l0 l1 pj < tol2
    · simp only [h, if_true]
      rw [ih l0 l1 pj, List.getLast?_cons_cons]
    · simp only [h, if_false]
      rw [cons_getLast?_of_ne_nil (rwRec_ne_nil tol2 ys cur pj pj) _,
        ih cur pj pj, List.getLast?_cons_cons]

lemma opRec_ne_nil (m M : ℚ) :
    ∀ (l : List Pt) (r0 r1 : Pt) (b : Bool) (cur : Pt),
      opRec m M r0 r1 b cur l ≠ [] := by
  intro l
  induction l with
  | nil => intro r0 r1 b cur; rw [opRec]; simp
  | cons pj ys ih =>
    intro r0 r1 b cur
    rw [opRec]
    by_cases h : b = false ∧ point_distance2 r0 pj < m
    · simp only [if_pos h]
      exact ih r0 r1 false pj
    · simp only [if_neg h]
      by_cases h2 : point_distance2 r0 pj < M ∧
          ray_distance2 r0 (if b then r1 else cur) pj < m
      · simp only [if_pos h2]
        exact ih r0 _ true pj
      · simp only [if_neg h2]
        simp

lemma opRec_getLast? (m M : ℚ) :
    ∀ (l : List Pt) (r0 r1 : Pt) (b : Bool) (cur : Pt),
      (opRec m M r0 r1 b cur l).getLast? = (cur :: l).getLast? := by
  intro l
  induction l with
  | nil => intro r0 r1 b cur; rw [opRec]
  | cons pj ys ih =>
    intro r0 r1 b cur
    rw [opRec]
    by_cases h : b = false ∧ point_distance2 r0 pj < m
    · simp only [if_pos h]
      rw [ih r0 r1 false pj, List.getLast?_cons_cons]
    · simp only [if_neg h]
      by_cases h2 : point_distance2 r0 pj < M ∧
          ray_distance2 r0 (if b then r1 else cur) pj < m
      · simp only [if_pos h2]
        rw [ih r0 _ true pj, List.getLast?_cons_cons]
      · simp only [if_neg h2]
        rw [cons_getLast?_of_ne_nil (opRec_ne_nil m M ys cur _ false pj) _,
          ih cur _ false pj, List.getLast?_cons_cons]

lemma pdRec_ne_nil (tol2 : ℚ) :
    ∀ (l : List Pt) (p0 : Pt), l ≠ [] → pdRec tol2 p0 l ≠ [] := by
  intro l
  match l with
  | [] => intro p0 h; exact absurd rfl h
  | [p1] => intro p0 _; rw [pdRec]; simp
  | [p1, p2] =>
    intro p0 _
    rw [pdRec]
    by_cases h : segment_distance2 p0 p2 p1 < tol2 <;> simp [h]
  | p1 :: p2 :: r :: rs =>
    intro p0 _
    rw [pdRec]
    by_cases h : segment_distance2 p0 p2 p1 < tol2 <;> simp [h]

lemma pdRec_getLast?_aux (tol2 : ℚ) :
    ∀ (n : ℕ) (l : List Pt), l.length ≤ n → l ≠ [] → ∀ p0,
      (pdRec tol2 p0 l).getLast? = l.getLast? := by
  intro n
  induction n with
  | zero =>
    intro l hl hne p0
    match l, hl with
    | [], _ => exact absurd rfl hne
  | succ n ih =>
    intro l hl hne p0
    match l with
    | [] => exact absurd rfl hne
    | [p1] => rw [pdRec]
    | [p1, p2] =>
      rw [pdRec]
      by_cases h : segment_distance2 p0 p2 p1 < tol2
      · simp [h]
      · simp only [h, if_false]
        rw [cons_getLast?_of_ne_nil (pdRec_ne_nil tol2 [p2] p1 (by simp)) _,
          ih [p2] (by simp only [List.length_cons] at hl ⊢; omega) (by simp) p1,
          List.getLast?_cons_cons]
    | p1 :: p2 :: r :: rs =>
      rw [pdRec]
      by_cases h : segment_distance2 p0 p2 p1 < tol2
      · simp only [h, if_true]
        rw [cons_getLast?_of_ne_nil (pdRec_ne_nil tol2 (r :: rs) p2 (by simp)) _,
          ih (r :: rs) (by simp only [List.length_cons] at hl ⊢; omega) (by simp) p2,
          List.getLast?_cons_cons, List.getLast?_cons_cons]
      · simp only [h, if_false]
        rw [cons_getLast?_of_ne_nil (pdRec_ne_nil tol2 (p2 :: r :: rs) p1 (by simp)) _,
          ih (p2 :: r :: rs) (by simp only [List.length_cons] at hl ⊢; omega) (by simp) p1]
        simp

lemma pdRec_getLast? (tol2 : ℚ) (l : List Pt) (hne : l ≠ []) (p0 : Pt) :
    (pdRec tol2 p0 l).getLast? = l.getLast? :=
  pdRec_getLast?_aux tol2 l.length l (le_refl _) hne p0

lemma getD_set_true_self {l : List Bool} {i : ℕ} (h : i < l.length) :
    (l.set i true).getD i false = true := by
  rw [List.getD_eq_getElem?_getD, List.getElem?_set_self (by simpa using h)]
  rfl

lemma getD_set_true_mono {l : List Bool} {i j : ℕ} (h : l.getD i false = true) :
    (l.set j true).getD i false = true := by
  by_cases hij : j = i
  · subst hij
    by_cases hlt : j < l.length
    · exact getD_set_true_self hlt
    · rwa [List.set_eq_of_length_le (by omega)]
  · rw [List.getD_eq_getElem?_getD, List.getElem?_set_ne hij]
    rw [List.getD_eq_getElem?_getD] at h
    exact h

lemma dpLoop_keys_length (D : ℕ) (coords : List ℚ) (tol2 : ℚ) :
    ∀ (fuel : ℕ) (stack : List SubPoly) (keys : List Bool),
      (dpLoop D coords tol2 fuel stack keys).length = keys.length := by
  intro fuel
  induction fuel with
  | zero => intro stack keys; rw [dpLoop]
  | succ fuel ih =>
    intro stack keys
    match stack with
    | [] => rw [dpLoop]
    | sp :: stack =>
      rw [dpLoop]
      by_cases h : (FindKey D coords sp.first sp.last).index ≠ sp.last ∧
          tol2 < (FindKey D coords sp.first sp.last).dist2
      · rw [if_pos h, ih]
        simp
      · rw [if_neg h, ih]

lemma dpLoop_keys_mono (D : ℕ) (coords : List ℚ) (tol2 : ℚ) :
    ∀ (fuel : ℕ) (stack : List SubPoly) (keys : List Bool) (i : ℕ),
      keys.getD i false = true →
      (dpLoop D coords tol2 fuel stack keys).getD i false = true := by
  intro fuel
  induction fuel with
  | zero => intro stack keys i h; rw [dpLoop]; exact h
  | succ fuel ih =>
    intro stack keys i h
    match stack with
    | [] => rw [dpLoop]; exact h
    | sp :: stack =>
      rw [dpLoop]
      by_cases hc : (FindKey D coords sp.first sp.last).index ≠ sp.last ∧
          tol2 < (FindKey D coords sp.first sp.last).dist2
      · rw [if_pos hc]
        exact ih _ _ _ (getD_set_true_mono h)
      · rw [if_neg hc]
        exact ih _ _ _ h

lemma dpAltLoop_keys_length (D : ℕ) (coords : List ℚ) (countTol : ℕ) :
    ∀ (fuel : ℕ) (q : List SubPolyAlt) (keys : List Bool) (kc : ℕ),
      (dpAltLoop D coords countTol fuel q keys kc).length = keys.length := by
  intro fuel
  induction fuel with
  | zero => intro q keys kc; rw [dpAltLoop]
  | succ fuel ih =>
    intro q keys kc
    match q with
    | [] => rw [dpAltLoop]
    | s :: q2 =>
      rw [dpAltLoop]
      simp only []
      by_cases h : (pqPop (s :: q2)).1.keyInfo.index ≠ (pqPop (s :: q2)).1.last
      · rw [if_pos h]
        by_cases h2 : kc + 1 = countTol
        · rw [if_pos h2]
          simp
        · rw [if_neg h2, ih]
          simp
      · rw [if_neg h, ih]

lemma dpAltLoop_keys_mono (D : ℕ) (coords : List ℚ) (countTol : ℕ) :
    ∀ (fuel : ℕ) (q : List SubPolyAlt) (keys : List Bool) (kc : ℕ) (i : ℕ),
      keys.getD i false = true →
      (dpAltLoop D coords countTol fuel q keys kc).getD i false = true := by
  intro fuel
  induction fuel with
  | zero => intro q keys kc i h; rw [dpAltLoop]; exact h
  | succ fuel ih =>
    intro q keys kc i h
    match q with
    | [] => rw [dpAltLoop]; exact h
    | s :: q2 =>
      rw [dpAltLoop]
      simp only []
      by_cases hc : (pqPop (s :: q2)).1.keyInfo.index ≠ (pqPop (s :: q2)).1.last
      · rw [if_pos hc]
        by_cases h2 : kc + 1 = countTol
        · rw [if_pos h2]
          exact getD_set_true_mono h
        · rw [if_neg h2]
          exact ih _ _ _ _ (getD_set_true_mono h)
      · rw [if_neg hc]
        exact ih _ _ _ _ h

/-- The initial keys buffer of both Douglas-Peucker variants: first and last
point marked. -/
lemma init_keys_facts {pc : ℕ} (hpc : 1 ≤ pc) :
    (((List.replicate pc false).set 0 true).set (pc - 1) true).getD 0 false = true ∧
    (((List.replicate pc false).set 0 true).set (pc - 1) true).getD (pc - 1) false = true ∧
    (((List.replicate pc false).set 0 true).set (pc - 1) true).length = pc := by
  refine ⟨?_, ?_, by simp⟩
  · refine getD_set_true_mono ?_
    exact getD_set_true_self (by simp; omega)
  · exact getD_set_true_self (by simp; omega)

lemma maskFilter_head? : ∀ (bs : List Bool) (cs : List Pt),
    bs.getD 0 false = true → cs ≠ [] →
    (maskFilter bs cs).head? = cs.head? := by
  intro bs cs hb hcs
  match bs, cs with
  | [], _ => simp at hb
  | b :: bs, [] => exact absurd rfl hcs
  | b :: bs, c :: cs =>
    have : b = true := by simpa using hb
    subst this
    rw [maskFilter_cons, if_pos rfl]
    simp

lemma maskFilter_getLast? : ∀ (bs : List Bool) (cs : List Pt),
    bs.length = cs.length → bs.getD (bs.length - 1) false = true → cs ≠ [] →
    (maskFilter bs cs).getLast? = cs.getLast? := by
  intro bs
  induction bs with
  | nil =>
    intro cs hlen _ hcs
    exact absurd (by simpa using hlen.symm) hcs
  | cons b bs ih =>
    intro cs hlen hlast hcs
    match cs with
    | [] => exact absurd rfl hcs
    | c :: cs =>
      match bs, cs with
      | [], [] =>
        have : b = true := by simpa using hlast
        subst this
        rw [maskFilter_cons, if_pos rfl, maskFilter_nil_left]
      | [], c2 :: cs => simp at hlen
      | b2 :: bs, [] => simp at hlen
      | b2 :: bs, c2 :: cs =>
        have hlen2 : (b2 :: bs).length = (c2 :: cs).length := by
          simpa using hlen
        have hlast2 : (b2 :: bs).getD ((b2 :: bs).length - 1) false = true := by
          simpa using hlast
        have hrec := ih (c2 :: cs) hlen2 hlast2 (by simp)
        have hne : maskFilter (b2 :: bs) (c2 :: cs) ≠ [] := by
          intro hcon
          rw [hcon] at hrec
          rw [List.getLast?_eq_getLast (c2 :: cs) (by simp)] at hrec
          simp at hrec
        rw [maskFilter_cons]
        by_cases hb : b
        · rw [if_pos hb, cons_getLast?_of_ne_nil hne, hrec, List.getLast?_cons_cons]
        · rw [if_neg hb, hrec, List.getLast?_cons_cons]

lemma endpoints_of_chunks {D : ℕ} {xs : List ℚ} {K : List Pt}
    (hxs : D ≤ xs.length)
    (hhead : K.head? = some (xs.take D))
    (hlast : K.getLast? = some (xs.drop (xs.length - D))) :
    K.flatten.take D = xs.take D ∧
    K.flatten.drop (K.flatten.length - D) = xs.drop (xs.length - D) :=
  ⟨flatten_take_head hhead (by simp only [List.length_take]; omega),
   flatten_getLast_drop hlast (by simp only [List.length_drop]; omega)⟩

/-- Shared facts on the valid path of a routine requiring `m ≤ pointCount`. -/
lemma valid_path_facts {D : ℕ} {xs : List ℚ} {m : ℕ} (hm : 1 ≤ m) (hD : D ≠ 0)
    (hmod : xs.length % D = 0) (hpc : m ≤ xs.length / D) :
    m * D ≤ xs.length ∧ xs ≠ [] ∧
    (toPoints D xs).head? = some (xs.take D) ∧
    (toPoints D xs).getLast? = some (xs.drop (xs.length - D)) ∧
    (toPoints D xs).length = xs.length / D := by
  have hpos : 0 < D := Nat.pos_of_ne_zero hD
  have hlen : m * D ≤ xs.length := (Nat.le_div_iff_mul_le hpos).mp hpc
  have hne : xs ≠ [] := by
    intro h
    rw [h] at hlen
    simp at hlen
    omega
  exact ⟨hlen, hne, toPoints_head? hD hne, toPoints_getLast? hD xs hmod hne,
    toPoints_length hD xs hmod⟩

lemma RadialDistance_endpoints (D : ℕ) (xs : List ℚ) (tol : ℚ) :
    (RadialDistance D xs tol).take D = xs.take D ∧
    (RadialDistance D xs tol).drop ((RadialDistance D xs tol).length - D) =
      xs.drop (xs.length - D) := by
  rw [RadialDistance]
  by_cases hv : xs.length % D ≠ 0 ∨ (if D = 0 then 0 else xs.length / D) < 2 ∨
      tol * tol = 0
  · rw [if_pos hv]
    exact ⟨rfl, rfl⟩
  · rw [if_neg hv]
    push_neg at hv
    obtain ⟨hmod, hpc, _⟩ := hv
    have hD : D ≠ 0 := by
      intro h
      rw [if_pos h] at hpc
      omega
    rw [if_neg hD] at hpc
    obtain ⟨hlen, hne, hhead, hlast, hplen⟩ := valid_path_facts (by omega) hD hmod hpc
    match hps : toPoints D xs with
    | [] => exact absurd hps (toPoints_ne_nil hD hne)
    | p0 :: rest =>
      show ((p0 :: rdRec (tol * tol) p0 rest.dropLast ++ [rest.getLastD []]).flatten).take D
          = _ ∧ _
      have hrest : rest ≠ [] := by
        intro h
        rw [hps, h] at hplen
        simp at hplen
        omega
      rw [hps] at hhead hlast
      have hp0 : p0 = xs.take D := by
        simpa using hhead
      have hrl : rest.getLastD [] = xs.drop (xs.length - D) := by
        rw [cons_getLast?_of_ne_nil hrest p0] at hlast
        rw [List.getLastD_eq_getLast?, hlast]
        rfl
      refine endpoints_of_chunks (by omega) ?_ ?_
      · simpa using hp0
      · show ((p0 :: rdRec (tol * tol) p0 rest.dropLast) ++ [rest.getLastD []]).getLast?
            = _
        rw [List.getLast?_concat, hrl]

lemma PerpendicularDistance_endpoints (D : ℕ) (xs : List ℚ) (tol : ℚ) :
    (PerpendicularDistance D xs tol).take D = xs.take D ∧
    (PerpendicularDistance D xs tol).drop ((PerpendicularDistance D xs tol).length - D) =
      xs.drop (xs.length - D) := by
  rw [PerpendicularDistance]
  by_cases hv : xs.length % D ≠ 0 ∨ (if D = 0 then 0 else xs.length / D) < 3 ∨
      tol * tol = 0
  · rw [if_pos hv]
    exact ⟨rfl, rfl⟩
  · rw [if_neg hv]
    push_neg at hv
    obtain ⟨hmod, hpc, _⟩ := hv
    have hD : D ≠ 0 := by
      intro h
      rw [if_pos h] at hpc
      omega
    rw [if_neg hD] at hpc
    obtain ⟨hlen, hne, hhead, hlast, hplen⟩ := valid_path_facts (by omega) hD hmod hpc
    match hps : toPoints D xs with
    | [] => exact absurd hps (toPoints_ne_nil hD hne)
    | p0 :: rest =>
      show ((p0 :: pdRec (tol * tol) p0 rest).flatten).take D = _ ∧ _
      have hrest : rest ≠ [] := by
        intro h
        rw [hps, h] at hplen
        simp at hplen
        omega
      rw [hps] at hhead hlast
      have hp0 : p0 = xs.take D := by
        simpa using hhead
      refine endpoints_of_chunks (by omega) ?_ ?_
      · simpa using hp0
      · rw [cons_getLast?_of_ne_nil (pdRec_ne_nil _ _ _ hrest) p0,
          pdRec_getLast? _ _ hrest, ← cons_getLast?_of_ne_nil hrest p0]
        exact hlast

lemma pdrRest_endpoints (D : ℕ) (tol : ℚ) :
    ∀ (r : ℕ) (cur : List ℚ),
      (pdrRest D tol r cur).take D = cur.take D ∧
      (pdrRest D tol r cur).drop ((pdrRest D tol r cur).length - D) =
        cur.drop (cur.length - D) := by
  intro r
  induction r with
  | zero => intro cur; rw [pdrRest]; exact ⟨rfl, rfl⟩
  | succ r ih =>
    intro cur
    match r with
    | 0 => exact PerpendicularDistance_endpoints D cur tol
    | r + 1 =>
      rw [pdrRest]
      by_cases h : (PerpendicularDistance D cur tol).length = cur.length
      · rw [if_pos h]
        exact ⟨rfl, rfl⟩
      · rw [if_neg h]
        obtain ⟨ht, hd⟩ := ih (PerpendicularDistance D cur tol)
        obtain ⟨ht2, hd2⟩ := PerpendicularDistance_endpoints D cur tol
        exact ⟨ht.trans ht2, hd.trans hd2⟩

lemma PerpendicularDistanceRepeat_endpoints (D : ℕ) (xs : List ℚ) (tol : ℚ) (rep : ℕ) :
    (PerpendicularDistanceRepeat D xs tol rep).take D = xs.take D ∧
    (PerpendicularDistanceRepeat D xs tol rep).drop
        ((PerpendicularDistanceRepeat D xs tol rep).length - D) =
      xs.drop (xs.length - D) := by
  rw [PerpendicularDistanceRepeat]
  by_cases h1 : rep = 1
  · rw [if_pos h1]
    exact PerpendicularDistance_endpoints D xs tol
  · rw [if_neg h1]
    by_cases h0 : rep < 1
    · rw [if_pos h0]
      exact ⟨rfl, rfl⟩
    · rw [if_neg h0]
      by_cases h : (PerpendicularDistance D xs tol).length = xs.length
      · simp only [if_pos h]
        exact PerpendicularDistance_endpoints D xs tol
      · simp only [if_neg h]
        obtain ⟨ht, hd⟩ := pdrRest_endpoints D tol (rep - 1) (PerpendicularDistance D xs tol)
        obtain ⟨ht2, hd2⟩ := PerpendicularDistance_endpoints D xs tol
        exact ⟨ht.trans ht2, hd.trans hd2⟩

lemma ReumannWitkam_endpoints (D : ℕ) (xs : List ℚ) (tol : ℚ) :
    (ReumannWitkam D xs tol).take D = xs.take D ∧
    (ReumannWitkam D xs tol).drop ((ReumannWitkam D xs tol).length - D) =
      xs.drop (xs.length - D) := by
  rw [ReumannWitkam]
  by_cases hv : xs.length % D ≠ 0 ∨ (if D = 0 then 0 else xs.length / D) < 3 ∨
      tol * tol = 0
  · rw [if_pos hv]
    exact ⟨rfl, rfl⟩
  · rw [if_neg hv]
    push_neg at hv
    obtain ⟨hmod, hpc, _⟩ := hv
    have hD : D ≠ 0 := by
      intro h
      rw [if_pos h] at hpc
      omega
    rw [if_neg hD] at hpc
    obtain ⟨hlen, hne, hhead, hlast, hplen⟩ := valid_path_facts (by omega) hD hmod hpc
    match hps : toPoints D xs with
    | [] => exact absurd hps (toPoints_ne_nil hD hne)
    | [p0] =>
      rw [hps] at hplen
      simp at hplen
      omega
    | p0 :: p1 :: rest =>
      show ((p0 :: rwRec (tol * tol) p0 p1 p1 rest).flatten).take D = _ ∧ _
      rw [hps] at hhead hlast
      have hp0 : p0 = xs.take D := by
        simpa using hhead
      refine endpoints_of_chunks (by omega) ?_ ?_
      · simpa using hp0
      · rw [cons_getLast?_of_ne_nil (rwRec_ne_nil _ _ _ _ _) p0,
          rwRec_getLast?, ← List.getLast?_cons_cons (a := p0)]
        exact hlast

lemma Opheim_endpoints (D : ℕ) (xs : List ℚ) (minTol maxTol : ℚ) :
    (Opheim D xs minTol maxTol).take D = xs.take D ∧
    (Opheim D xs minTol maxTol).drop ((Opheim D xs minTol maxTol).length - D) =
      xs.drop (xs.length - D) := by
  rw [Opheim]
  by_cases hv : xs.length % D ≠ 0 ∨ (if D = 0 then 0 else xs.length / D) < 2 ∨
      minTol * minTol = 0 ∨ maxTol * maxTol = 0
  · rw [if_pos hv]
    exact ⟨rfl, rfl⟩
  · rw [if_neg hv]
    push_neg at hv
    obtain ⟨hmod, hpc, _⟩ := hv
    have hD : D ≠ 0 := by
      intro h
      rw [if_pos h] at hpc
      omega
    rw [if_neg hD] at hpc
    obtain ⟨hlen, hne, hhead, hlast, hplen⟩ := valid_path_facts (by omega) hD hmod hpc
    match hps : toPoints D xs with
    | [] => exact absurd hps (toPoints_ne_nil hD hne)
    | [p0] =>
      rw [hps] at hplen
      simp at hplen
      omega
    | p0 :: p1 :: rest =>
      show ((p0 :: opRec (minTol * minTol) (maxTol * maxTol) p0 p0 false p1 rest).flatten).take D
          = _ ∧ _
      rw [hps] at hhead hlast
      have hp0 : p0 = xs.take D := by
        simpa using hhead
      refine endpoints_of_chunks (by omega) ?_ ?_
      · simpa using hp0
      · rw [cons_getLast?_of_ne_nil (opRec_ne_nil _ _ _ _ _ _ _) p0,
          opRec_getLast?, ← List.getLast?_cons_cons (a := p0)]
        exact hlast

lemma NthPoint_endpoints (D : ℕ) (xs : List ℚ) (n : ℕ) :
    (NthPoint D xs n).take D = xs.take D ∧
    (NthPoint D xs n).drop ((NthPoint D xs n).length - D) =
      xs.drop (xs.length - D) := by
  rw [NthPoint]
  by_cases hv : xs.length % D ≠ 0 ∨ (if D = 0 then 0 else xs.length / D) < 2 ∨ n < 2
  · rw [if_pos hv]
    exact ⟨rfl, rfl⟩
  · rw [if_neg hv]
    push_neg at hv
    obtain ⟨hmod, hpc, hn⟩ := hv
    have hD : D ≠ 0 := by
      intro h
      rw [if_pos h] at hpc
      omega
    rw [if_neg hD] at hpc
    simp only [if_neg hD]
    obtain ⟨hlen, hne, hhead, hlast, hplen⟩ := valid_path_facts (by omega) hD hmod hpc
    set pc := xs.length / D with hpcdef
    set k := (pc - 1) / n with hk
    have hkn : k * n ≤ pc - 1 := by
      rw [hk]
      exact Nat.div_mul_le_self _ _
    have hgd0 : (toPoints D xs).getD 0 [] = xs.take D := by
      rw [List.getD_eq_getElem?_getD, ← List.head?_eq_getElem?, hhead]
      rfl
    have hgdl : (toPoints D xs).getD (pc - 1) [] = xs.drop (xs.length - D) := by
      have h1 := getD_length_sub_one_eq_getLast? (l := toPoints D xs)
        (toPoints_ne_nil hD hne)
      rw [hplen, hlast] at h1
      exact h1
    refine endpoints_of_chunks (by omega) ?_ ?_
    · simpa using hgd0
    · by_cases hr : pc - k * n - 1 ≠ 0
      · rw [if_pos hr, hgdl]
        exact List.getLast?_concat _
      · rw [if_neg hr]
        push_neg at hr
        have hk1 : 1 ≤ k := by
          rcases Nat.eq_zero_or_pos k with hk0 | h
          · rw [hk0] at hr
            simp only [Nat.zero_mul, Nat.sub_zero] at hr
            omega
          · exact h
        have hkeq : k * n = pc - 1 := by omega
        rw [List.append_nil, show k = (k - 1) + 1 by omega, List.range_succ,
          List.map_append]
        simp only [List.map_cons, List.map_nil]
        rw [cons_getLast?_of_ne_nil (by simp) _, List.getLast?_concat]
        rw [show k - 1 + 1 = k by omega, hkeq, hgdl]

lemma Approximate_keys_facts {D : ℕ} {coords : List ℚ}
    (h1 : 1 ≤ coords.length / D) (tol : ℚ) :
    (Approximate D coords tol).length = coords.length / D ∧
    (Approximate D coords tol).getD 0 false = true ∧
    (Approximate D coords tol).getD (coords.length / D - 1) false = true := by
  obtain ⟨hi0, hil, hll⟩ := init_keys_facts h1
  rw [Approximate]
  refine ⟨?_, ?_, ?_⟩
  · rw [dpLoop_keys_length, hll]
  · exact dpLoop_keys_mono _ _ _ _ _ _ _ hi0
  · exact dpLoop_keys_mono _ _ _ _ _ _ _ hil

lemma ApproximateAlt_keys_facts {D : ℕ} {coords : List ℚ}
    (h1 : 1 ≤ coords.length / D) (count : ℕ) :
    (ApproximateAlt D coords count).length = coords.length / D ∧
    (ApproximateAlt D coords count).getD 0 false = true ∧
    (ApproximateAlt D coords count).getD (coords.length / D - 1) false = true := by
  obtain ⟨hi0, hil, hll⟩ := init_keys_facts h1
  rw [ApproximateAlt]
  by_cases h2 : count = 2
  · rw [if_pos h2]
    exact ⟨hll, hi0, hil⟩
  · rw [if_neg h2]
    refine ⟨?_, ?_, ?_⟩
    · rw [dpAltLoop_keys_length, hll]
    · exact dpAltLoop_keys_mono _ _ _ _ _ _ _ _ hi0
    · exact dpAltLoop_keys_mono _ _ _ _ _ _ _ _ hil

lemma DouglasPeucker_endpoints (D : ℕ) (xs : List ℚ) (tol : ℚ) :
    (DouglasPeucker D xs tol).take D = xs.take D ∧
    (DouglasPeucker D xs tol).drop ((DouglasPeucker D xs tol).length - D) =
      xs.drop (xs.length - D) := by
  rw [DouglasPeucker]
  by_cases hv : xs.length % D ≠ 0 ∨ (if D = 0 then 0 else xs.length / D) < 2 ∨ tol = 0
  · rw [if_pos hv]
    exact ⟨rfl, rfl⟩
  · rw [if_neg hv]
    push_neg at hv
    obtain ⟨hmod, hpc, _⟩ := hv
    have hD : D ≠ 0 := by
      intro h
      rw [if_pos h] at hpc
      omega
    rw [if_neg hD] at hpc
    have hpos : 0 < D := Nat.pos_of_ne_zero hD
    obtain ⟨hlen, hne, _, _, _⟩ := valid_path_facts (by omega) hD hmod hpc
    obtain ⟨hrt, hrd⟩ := RadialDistance_endpoints D xs tol
    have hmodr : (RadialDistance D xs tol).length % D = 0 :=
      RadialDistance_length_mod hD hmod tol
    set reduced := RadialDistance D xs tol with hreddef
    have hDred : D ≤ reduced.length := by
      have := congrArg List.length hrt
      simp only [List.length_take] at this
      omega
    have hner : reduced ≠ [] := by
      intro h
      rw [h] at hDred
      simp at hDred
      omega
    have hpcr : 1 ≤ reduced.length / D := (Nat.le_div_iff_mul_le hpos).mpr (by omega)
    obtain ⟨hkl, hk0, hkl2⟩ := Approximate_keys_facts hpcr tol
    have hptsl : (toPoints D reduced).length = reduced.length / D :=
      toPoints_length hD reduced hmodr
    have hptsne : toPoints D reduced ≠ [] := toPoints_ne_nil hD hner
    refine endpoints_of_chunks (by omega) ?_ ?_
    · rw [maskFilter_head? _ _ hk0 hptsne, toPoints_head? hD hner, hrt]
    · rw [maskFilter_getLast? _ _ (by rw [hkl, hptsl]) (by rw [hkl]; exact hkl2) hptsne,
        toPoints_getLast? hD reduced hmodr hner, hrd]

lemma DouglasPeuckerAlt_endpoints (D count : ℕ) (xs : List ℚ) :
    (DouglasPeuckerAlt D xs count).take D = xs.take D ∧
    (DouglasPeuckerAlt D xs count).drop ((DouglasPeuckerAlt D xs count).length - D) =
      xs.drop (xs.length - D) := by
  rw [DouglasPeuckerAlt]
  by_cases hv : xs.length % D ≠ 0 ∨ (if D = 0 then 0 else xs.length / D) ≤ count ∨
      count < 2
  · rw [if_pos hv]
    exact ⟨rfl, rfl⟩
  · rw [if_neg hv]
    push_neg at hv
    obtain ⟨hmod, hpc, hc⟩ := hv
    have hD : D ≠ 0 := by
      intro h
      rw [if_pos h] at hpc
      omega
    rw [if_neg hD] at hpc
    have hpos : 0 < D := Nat.pos_of_ne_zero hD
    obtain ⟨hlen, hne, hhead, hlast, hplen⟩ :=
      valid_path_facts (m := 1) (by omega) hD hmod (by omega)
    obtain ⟨hkl, hk0, hkl2⟩ :=
      @ApproximateAlt_keys_facts D xs (by omega) count
    have hptsne : toPoints D xs ≠ [] := toPoints_ne_nil hD hne
    refine endpoints_of_chunks (by omega) ?_ ?_
    · rw [maskFilter_head? _ _ hk0 hptsne, hhead]
    · rw [maskFilter_getLast? _ _ (by rw [hkl, hplen]) (by rw [hkl]; exact hkl2) hptsne,
        hlast]

/-- C2.  For every simplification routine, the first `DIM` coordinates of the
output equal the first `DIM` coordinates of the input and the last `DIM`
coordinates of the output equal the last `DIM` coordinates of the input: the
first and last point of the polyline are always retained (on valid input via
the scan structure; on malformed input because the input is copied verbatim). -/
theorem first_and_last_point_retained (D n rep count : ℕ) (xs : List ℚ)
    (tol minTol maxTol : ℚ) :
    ((NthPoint D xs n).take D = xs.take D ∧
      (NthPoint D xs n).drop ((NthPoint D xs n).length - D) =
        xs.drop (xs.length - D)) ∧
    ((RadialDistance D xs tol).take D = xs.take D ∧
      (RadialDistance D xs tol).drop ((RadialDistance D xs tol).length - D) =
        xs.drop (xs.length - D)) ∧
    ((PerpendicularDistance D xs tol).take D = xs.take D ∧
      (PerpendicularDistance D xs tol).drop
          ((PerpendicularDistance D xs tol).length - D) =
        xs.drop (xs.length - D)) ∧
    ((PerpendicularDistanceRepeat D xs tol rep).take D = xs.take D ∧
      (PerpendicularDistanceRepeat D xs tol rep).drop
          ((PerpendicularDistanceRepeat D xs tol rep).length - D) =
        xs.drop (xs.length - D)) ∧
    ((ReumannWitkam D xs tol).take D = xs.take D ∧
      (ReumannWitkam D xs tol).drop ((ReumannWitkam D xs tol).length - D) =
        xs.drop (xs.length - D)) ∧
    ((Opheim D xs minTol maxTol).take D = xs.take D ∧
      (Opheim D xs minTol maxTol).drop ((Opheim D xs minTol maxTol).length - D) =
        xs.drop (xs.length - D)) ∧
    ((DouglasPeucker D xs tol).take D = xs.take D ∧
      (DouglasPeucker D xs tol).drop ((DouglasPeucker D xs tol).length - D) =
        xs.drop (xs.length - D)) ∧
    ((DouglasPeuckerAlt D xs count).take D = xs.take D ∧
      (DouglasPeuckerAlt D xs count).drop
          ((DouglasPeuckerAlt D xs count).length - D) =
        xs.drop (xs.length - D)) :=
  ⟨NthPoint_endpoints D xs n,
   RadialDistance_endpoints D xs tol,
   PerpendicularDistance_endpoints D xs tol,
   PerpendicularDistanceRepeat_endpoints D xs tol rep,
   ReumannWitkam_endpoints D xs tol,
   Opheim_endpoints D xs minTol maxTol,
   DouglasPeucker_endpoints D xs tol,
   DouglasPeuckerAlt_endpoints D count xs⟩

/-! ### Validity of the positional-error scan (C8) -/

/-- The claim's notion of the lock-step scan succeeding: every target point is
found verbatim in the remaining originals, in order; a found position is not
consumed (consecutive equal targets may match the same original point, exactly
as the source's inner loop leaves `original_first` on the match). -/
def scanFinds : List Pt → List Pt → Bool
  | _, [] => true
  | [], _ :: _ => false
  | o :: os, t :: ts =>
    if o = t then scanFinds (o :: os) ts else scanFinds os (t :: ts)
termination_by l ts => (ts.length, l.length)

lemma cpeInner_eq (prev t : Pt) : ∀ (l : List Pt), ∃ pre rem,
    cpeInner prev t l = (pre.map (fun o => segment_distance2 prev t o), rem) ∧
    l = pre ++ rem ∧ (∀ o ∈ pre, o ≠ t) ∧ (rem = [] ∨ ∃ rest, rem = t :: rest) := by
  intro l
  induction l with
  | nil => exact ⟨[], [], rfl, rfl, by simp, Or.inl rfl⟩
  | cons o os ih =>
    by_cases ho : o = t
    · subst ho
      refine ⟨[], o :: os, ?_, rfl, by simp, Or.inr ⟨os, rfl⟩⟩
      rw [cpeInner, if_pos rfl]
      rfl
    · obtain ⟨pre, rem, heq, hsplit, hpre, hrem⟩ := ih
      refine ⟨o :: pre, rem, ?_, by simp [hsplit], ?_, hrem⟩
      · rw [cpeInner, if_neg ho, heq]
        rfl
      · intro x hx
        rcases List.mem_cons.mp hx with rfl | hx
        · exact ho
        · exact hpre x hx

lemma cpeOuter_nil_orig : ∀ (sEnds : List Pt) (prev : Pt),
    cpeOuter [] prev sEnds = ([], []) := by
  intro sEnds
  induction sEnds with
  | nil => intro prev; rw [cpeOuter]
  | cons t ts ih =>
    intro prev
    rw [cpeOuter, cpeInner]
    simp [ih]

lemma scanFinds_not_found {t : Pt} : ∀ (os : List Pt) (ts : List Pt),
    (∀ o ∈ os, o ≠ t) → scanFinds os (t :: ts) = false := by
  intro os
  induction os with
  | nil => intro ts _; rw [scanFinds]
  | cons o os ih =>
    intro ts h
    rw [scanFinds, if_neg (h o (by simp))]
    exact ih ts (fun x hx => h x (by simp [hx]))

lemma scanFinds_skip {t : Pt} : ∀ (pre : List Pt) (os ts : List Pt),
    (∀ o ∈ pre, o ≠ t) →
    scanFinds (pre ++ t :: os) (t :: ts) = scanFinds (t :: os) ts := by
  intro pre
  induction pre with
  | nil =>
    intro os ts _
    rw [List.nil_append, scanFinds, if_pos rfl]
  | cons p pre ih =>
    intro os ts h
    rw [List.cons_append, scanFinds, if_neg (h p (by simp))]
    exact ih os ts (fun x hx => h x (by simp [hx]))

lemma cpeOuter_rem_iff : ∀ (sEnds : List Pt) (origRem : List Pt) (prev : Pt),
    origRem ≠ [] →
    ((cpeOuter origRem prev sEnds).2 ≠ [] ↔ scanFinds origRem sEnds = true) := by
  intro sEnds
  induction sEnds with
  | nil =>
    intro origRem prev hne
    rw [cpeOuter, scanFinds]
    simpa using hne
  | cons t ts ih =>
    intro origRem prev hne
    obtain ⟨pre, rem, heq, hsplit, hpre, hrem⟩ := cpeInner_eq prev t origRem
    rw [cpeOuter]
    simp only [heq]
    rcases hrem with rfl | ⟨rest, rfl⟩
    · rw [cpeOuter_nil_orig]
      simp only [List.append_nil] at hsplit
      subst hsplit
      rw [scanFinds_not_found _ _ hpre]
      simp
    · subst hsplit
      rw [scanFinds_skip _ _ _ hpre]
      simpa using ih (t :: rest) t (by simp)

/-- C8.  `ComputePositionalErrors2` reports `valid = false` exactly when the
inputs violate validity: a coordinate count that is not a multiple of `DIM`,
fewer than 2 points in either sequence, an original point count smaller than
the simplification point count, differing first points, or a simplification
point not found verbatim, in order, by the lock-step scan. -/
theorem cpe_valid_iff_scan (D : ℕ) (orig simpl : List ℚ) :
    (ComputePositionalErrors2 D orig simpl).2 = false ↔
      (orig.length % D ≠ 0 ∨ (if D = 0 then 0 else orig.length / D) < 2 ∨
       simpl.length % D ≠ 0 ∨ (if D = 0 then 0 else simpl.length / D) < 2 ∨
       (if D = 0 then 0 else orig.length / D) <
         (if D = 0 then 0 else simpl.length / D) ∨
       orig.take D ≠ simpl.take D ∨
       scanFinds (toPoints D orig) ((toPoints D simpl).drop 1) = false) := by
  rw [ComputePositionalErrors2]
  by_cases hv : orig.length % D ≠ 0 ∨ (if D = 0 then 0 else orig.length / D) < 2 ∨
      simpl.length % D ≠ 0 ∨ (if D = 0 then 0 else simpl.length / D) < 2 ∨
      (if D = 0 then 0 else orig.length / D) < (if D = 0 then 0 else simpl.length / D) ∨
      orig.take D ≠ simpl.take D
  · rw [if_pos hv]
    simp only [true_iff]
    tauto
  · rw [if_neg hv]
    push_neg at hv
    obtain ⟨hmod, hopc, hmods, hspc, hle, hfirst⟩ := hv
    have hD : D ≠ 0 := by
      intro h
      rw [if_pos h] at hopc
      omega
    rw [if_neg hD] at hopc hspc
    simp only [if_neg hD] at hle
    have hone : orig ≠ [] := by
      intro h
      rw [h] at hopc
      simp at hopc
    have hsne : simpl ≠ [] := by
      intro h
      rw [h] at hspc
      simp at hspc
    have hono : toPoints D orig ≠ [] := toPoints_ne_nil hD hone
    match hps : toPoints D simpl with
    | [] => exact absurd hps (toPoints_ne_nil hD hsne)
    | s0 :: sRest =>
      show (decide ((cpeOuter (toPoints D orig) s0 sRest).2 ≠ []) = false) ↔ _
      have hiff := cpeOuter_rem_iff sRest (toPoints D orig) s0 hono
      simp only [List.drop_one, List.tail_cons]
      constructor
      · intro h
        refine Or.inr (Or.inr (Or.inr (Or.inr (Or.inr (Or.inr ?_)))))
        rw [decide_eq_false_iff_not, not_not] at h
        by_contra hcon
        have : scanFinds (toPoints D orig) sRest = true := by
          rcases Bool.eq_false_or_eq_true (scanFinds (toPoints D orig) sRest) with h2 | h2
          · exact h2
          · exact absurd h2 hcon
        exact absurd h (hiff.mpr this)
      · intro h
        rcases h with h | h | h | h | h | h | h
        · exact absurd h (by simpa using hmod)
        · rw [if_neg hD] at h; omega
        · exact absurd h (by simpa using hmods)
        · rw [if_neg hD] at h; omega
        · rw [if_neg hD, if_neg hD] at h; omega
        · rw [hfirst] at h
          exact absurd rfl h
        · rw [decide_eq_false_iff_not, not_not]
          by_contra hcon
          rw [hiff.mp hcon] at h
          simp at h

/-! ### Elementary facts about the distance primitives -/

lemma make_vector_self (p : Pt) : make_vector p p = List.replicate p.length 0 := by
  induction p with
  | nil => rfl
  | cons x xs ih =>
    simp only [make_vector, List.zipWith_cons_cons, sub_self, List.length_cons,
      List.replicate_succ, List.cons.injEq, true_and]
    exact ih

lemma dot_replicate_zero_left : ∀ (n : ℕ) (v : Pt), dot (List.replicate n 0) v = 0 := by
  intro n
  induction n with
  | zero => intro v; simp [dot]
  | succ n ih =>
    intro v
    match v with
    | [] => simp [dot]
    | y :: ys =>
      simp only [dot, List.replicate_succ, List.zipWith_cons_cons, List.sum_cons,
        zero_mul, zero_add]
      exact ih ys

lemma point_distance2_self (p : Pt) : point_distance2 p p = 0 := by
  induction p with
  | nil => rfl
  | cons x xs ih =>
    simp only [point_distance2, List.zipWith_cons_cons, sub_self, zero_mul,
      List.sum_cons, zero_add]
    exact ih

lemma point_distance2_nonneg (p q : Pt) : 0 ≤ point_distance2 p q := by
  refine List.sum_nonneg ?_
  intro x hx
  rw [List.mem_iff_get] at hx
  obtain ⟨i, hi⟩ := hx
  rw [← hi]
  simp only [List.get_eq_getElem, List.getElem_zipWith]
  exact mul_self_nonneg _

lemma segment_distance2_nonneg (s1 s2 p : Pt) : 0 ≤ segment_distance2 s1 s2 p := by
  rw [segment_distance2]
  by_cases h1 : dot (make_vector s1 p) (make_vector s1 s2) ≤ 0
  · rw [if_pos h1]
    exact point_distance2_nonneg _ _
  · rw [if_neg h1]
    by_cases h2 : dot (make_vector s1 s2) (make_vector s1 s2) ≤
        dot (make_vector s1 p) (make_vector s1 s2)
    · rw [if_pos h2]
      exact point_distance2_nonneg _ _
    · rw [if_neg h2]
      exact point_distance2_nonneg _ _

lemma segment_distance2_self_left (p q : Pt) : segment_distance2 p q p = 0 := by
  rw [segment_distance2]
  rw [make_vector_self]
  rw [if_pos (le_of_eq (dot_replicate_zero_left _ _))]
  exact point_distance2_self p

/-! ### The error count of the positional-error scan (C10) -/

lemma cpeInner_lengths (prev t : Pt) (l : List Pt) :
    (cpeInner prev t l).1.length + (cpeInner prev t l).2.length = l.length := by
  obtain ⟨pre, rem, heq, hsplit, _, _⟩ := cpeInner_eq prev t l
  rw [heq, hsplit]
  simp

lemma cpeOuter_lengths : ∀ (sEnds origRem : List Pt) (prev : Pt),
    (cpeOuter origRem prev sEnds).1.length + (cpeOuter origRem prev sEnds).2.length =
      origRem.length := by
  intro sEnds
  induction sEnds with
  | nil => intro origRem prev; rw [cpeOuter]; simp
  | cons t ts ih =>
    intro origRem prev
    rw [cpeOuter]
    have h1 := cpeInner_lengths prev t origRem
    have h2 := ih (cpeInner prev t origRem).2 t
    simp only [List.length_append]
    omega

/-- The final resting position of the positional-error scan: the suffix of the
original's points from the last match on (empty when the inputs are invalid
upfront). -/
def cpeRest (D : ℕ) (orig simpl : List ℚ) : List Pt :=
  let oc := orig.length
  let opc := if D = 0 then 0 else oc / D
  let sc := simpl.length
  let spc := if D = 0 then 0 else sc / D
  if oc % D ≠ 0 ∨ opc < 2 ∨ sc % D ≠ 0 ∨ spc < 2 ∨ opc < spc ∨
      orig.take D ≠ simpl.take D then []
  else
    match toPoints D simpl with
    | [] => []
    | s0 :: sRest => (cpeOuter (toPoints D orig) s0 sRest).2

lemma cpe_valid_shape {D : ℕ} {orig simpl : List ℚ} {s0 : Pt} {sRest : List Pt}
    (hv : ¬(orig.length % D ≠ 0 ∨ (if D = 0 then 0 else orig.length / D) < 2 ∨
      simpl.length % D ≠ 0 ∨ (if D = 0 then 0 else simpl.length / D) < 2 ∨
      (if D = 0 then 0 else orig.length / D) < (if D = 0 then 0 else simpl.length / D) ∨
      orig.take D ≠ simpl.take D))
    (hps : toPoints D simpl = s0 :: sRest) :
    ComputePositionalErrors2 D orig simpl =
      ((cpeOuter (toPoints D orig) s0 sRest).1 ++
        (if (cpeOuter (toPoints D orig) s0 sRest).2 ≠ [] then [0] else []),
       decide ((cpeOuter (toPoints D orig) s0 sRest).2 ≠ [])) := by
  rw [ComputePositionalErrors2, if_neg hv, hps]

lemma cpeRest_valid_shape {D : ℕ} {orig simpl : List ℚ} {s0 : Pt} {sRest : List Pt}
    (hv : ¬(orig.length % D ≠ 0 ∨ (if D = 0 then 0 else orig.length / D) < 2 ∨
      simpl.length % D ≠ 0 ∨ (if D = 0 then 0 else simpl.length / D) < 2 ∨
      (if D = 0 then 0 else orig.length / D) < (if D = 0 then 0 else simpl.length / D) ∨
      orig.take D ≠ simpl.take D))
    (hps : toPoints D simpl = s0 :: sRest) :
    cpeRest D orig simpl = (cpeOuter (toPoints D orig) s0 sRest).2 := by
  rw [cpeRest, if_neg hv, hps]

/-- C10 as amended.  When `ComputePositionalErrors2` reports `valid = true`,
it writes `originalPointCount + 1 - r` squared errors, where `r ≥ 1` is the
number of original points from the scan's final match on — exactly one error
per original point only when the final match lands on the last original point;
the last written error is the explicit `0`, and a point scored against a
segment that starts at the point itself receives `0`. -/
theorem cpe_error_count_of_valid (D : ℕ) (orig simpl : List ℚ)
    (h : (ComputePositionalErrors2 D orig simpl).2 = true) :
    1 ≤ (cpeRest D orig simpl).length ∧
    (cpeRest D orig simpl).length ≤ orig.length / D ∧
    (ComputePositionalErrors2 D orig simpl).1.length =
      orig.length / D + 1 - (cpeRest D orig simpl).length ∧
    (ComputePositionalErrors2 D orig simpl).1.getLast? = some 0 ∧
    ∀ p q : Pt, segment_distance2 p q p = 0 := by
  by_cases hv : orig.length % D ≠ 0 ∨ (if D = 0 then 0 else orig.length / D) < 2 ∨
      simpl.length % D ≠ 0 ∨ (if D = 0 then 0 else simpl.length / D) < 2 ∨
      (if D = 0 then 0 else orig.length / D) < (if D = 0 then 0 else simpl.length / D) ∨
      orig.take D ≠ simpl.take D
  · rw [ComputePositionalErrors2, if_pos hv] at h
    simp at h
  · have hv2 := hv
    push_neg at hv2
    obtain ⟨hmod, hopc, hmods, hspc, _, _⟩ := hv2
    have hD : D ≠ 0 := by
      intro h2
      rw [if_pos h2] at hopc
      omega
    rw [if_neg hD] at hopc hspc
    have hsne : simpl ≠ [] := by
      intro h2
      rw [h2] at hspc
      simp at hspc
    obtain ⟨s0, sRest, hps⟩ := List.exists_cons_of_ne_nil (toPoints_ne_nil hD hsne)
    rw [cpe_valid_shape hv hps] at h ⊢
    rw [cpeRest_valid_shape hv hps]
    have hrem : (cpeOuter (toPoints D orig) s0 sRest).2 ≠ [] := by
      simpa using h
    have hlen := cpeOuter_lengths sRest (toPoints D orig) s0
    have hpts : (toPoints D orig).length = orig.length / D :=
      toPoints_length hD orig hmod
    have hr1 : 1 ≤ (cpeOuter (toPoints D orig) s0 sRest).2.length :=
      List.length_pos.mpr hrem
    refine ⟨hr1, by omega, ?_, ?_, fun p q => segment_distance2_self_left p q⟩
    · rw [if_pos hrem]
      simp only [List.length_append, List.length_cons, List.length_nil]
      omega
    · rw [if_pos hrem]
      exact List.getLast?_concat _

/-- Witness for the amended C10: original `[0,1,2]`, simplification `[0,2]`
(`DIM = 1`): three errors for three points, the rest has length 1, and the
final error is the explicit `0`. -/
theorem cpe_error_count_of_valid_witness :
    1 ≤ (cpeRest 1 [0, 1, 2] [0, 2]).length ∧
    (cpeRest 1 [0, 1, 2] [0, 2]).length ≤ ([0, 1, 2] : List ℚ).length / 1 ∧
    (ComputePositionalErrors2 1 [0, 1, 2] [0, 2]).1.length =
      ([0, 1, 2] : List ℚ).length / 1 + 1 - (cpeRest 1 [0, 1, 2] [0, 2]).length ∧
    (ComputePositionalErrors2 1 [0, 1, 2] [0, 2]).1.getLast? = some 0 := by
  obtain ⟨h1, h2, h3, h4, _⟩ := cpe_error_count_of_valid 1 [0, 1, 2] [0, 2] (by decide)
  exact ⟨h1, h2, h3, h4⟩

/-! ### C4: the output size of `DouglasPeuckerAlt` -/

lemma count_true_set_le : ∀ (l : List Bool) (i : ℕ),
    (l.set i true).count true ≤ l.count true + 1 := by
  intro l
  induction l with
  | nil => intro i; simp
  | cons b bs ih =>
    intro i
    match i with
    | 0 =>
      simp only [List.set_cons_zero, List.count_cons]
      rcases b with _ | _ <;> simp
    | i + 1 =>
      simp only [List.set_cons_succ, List.count_cons]
      have := ih i
      omega

lemma init_keys_count_le (pc : ℕ) :
    ((((List.replicate pc false).set 0 true).set (pc - 1) true).count true) ≤ 2 := by
  have h1 := count_true_set_le ((List.replicate pc false).set 0 true) (pc - 1)
  have h2 := count_true_set_le (List.replicate pc false) 0
  have h3 : (List.replicate pc false).count true = 0 :=
    List.count_eq_zero.mpr (by simp [List.mem_replicate])
  omega

lemma dpAltLoop_count_le (D : ℕ) (coords : List ℚ) (countTol : ℕ) :
    ∀ (fuel : ℕ) (q : List SubPolyAlt) (keys : List Bool) (kc : ℕ),
      keys.count true ≤ kc → kc < countTol →
      (dpAltLoop D coords countTol fuel q keys kc).count true ≤ countTol := by
  intro fuel
  induction fuel with
  | zero => intro q keys kc h1 h2; rw [dpAltLoop]; omega
  | succ fuel ih =>
    intro q keys kc h1 h2
    match q with
    | [] => rw [dpAltLoop]; omega
    | s :: q2 =>
      rw [dpAltLoop]
      simp only []
      by_cases hc : (pqPop (s :: q2)).1.keyInfo.index ≠ (pqPop (s :: q2)).1.last
      · rw [if_pos hc]
        have hset := count_true_set_le keys ((pqPop (s :: q2)).1.keyInfo.index / D)
        by_cases h3 : kc + 1 = countTol
        · rw [if_pos h3]
          omega
        · rw [if_neg h3]
          exact ih _ _ _ (by omega) (by omega)
      · rw [if_neg hc]
        exact ih _ _ _ h1 h2

lemma ApproximateAlt_count_le (D : ℕ) (coords : List ℚ) (countTol : ℕ)
    (h2 : 2 ≤ countTol) :
    (ApproximateAlt D coords countTol).count true ≤ countTol := by
  rw [ApproximateAlt]
  simp only []
  by_cases hc : countTol = 2
  · rw [if_pos hc]
    have := init_keys_count_le (coords.length / D)
    omega
  · rw [if_neg hc]
    exact dpAltLoop_count_le _ _ _ _ _ _ _ (init_keys_count_le _) (by omega)

lemma flatten_length_le_of_chunks {D : ℕ} {K : List Pt} (hall : ∀ p ∈ K, p.length ≤ D) :
    K.flatten.length ≤ K.length * D := by
  induction K with
  | nil => simp
  | cons c cs ih =>
    simp only [List.flatten_cons, List.length_append, List.length_cons]
    have h1 := hall c (by simp)
    have h2 := ih (fun p hp => hall p (by simp [hp]))
    calc c.length + cs.flatten.length ≤ D + cs.length * D := by omega
      _ = (cs.length + 1) * D := by ring

/-- C4 as amended.  On a well-formed call (`DIM` positive, an exact number of
points, `2 ≤ count < pointCount`) `DouglasPeuckerAlt` emits AT MOST `count`
points (`count * DIM` coordinates): each priority-queue pop adds at most one
marked key and the loop stops once `keyCount` reaches `count`, but a
degenerate sub-polyline consumes a slot of the budget without marking a new
point, so the output can fall short of `count`. -/
theorem douglasPeuckerAlt_at_most_count (D : ℕ) (xs : List ℚ) (count : ℕ)
    (hD : D ≠ 0) (hmod : xs.length % D = 0) (h2 : 2 ≤ count)
    (hlt : count < xs.length / D) :
    (DouglasPeuckerAlt D xs count).length ≤ count * D := by
  rw [DouglasPeuckerAlt]
  simp only []
  have hval : ¬(xs.length % D ≠ 0 ∨ (if D = 0 then 0 else xs.length / D) ≤ count ∨
      count < 2) := by
    rw [if_neg hD]
    push_neg
    exact ⟨hmod, by omega, by omega⟩
  rw [if_neg hval]
  have hcount := ApproximateAlt_count_le D xs count h2
  have hmask := maskFilter_length_le (ApproximateAlt D xs count) (toPoints D xs)
  have hall : ∀ p ∈ maskFilter (ApproximateAlt D xs count) (toPoints D xs), p.length ≤ D :=
    fun p hp => length_mem_toPoints_le xs p ((maskFilter_sublist _ _).subset hp)
  calc (maskFilter (ApproximateAlt D xs count) (toPoints D xs)).flatten.length
      ≤ (maskFilter (ApproximateAlt D xs count) (toPoints D xs)).length * D :=
        flatten_length_le_of_chunks hall
    _ ≤ count * D := Nat.mul_le_mul_right D (le_trans hmask hcount)

/-- Witness for the amended C4: the counterexample input itself (`DIM = 1`,
coordinates `[0,5,0,0,0]`, target count `4`) satisfies the bound — it emits 3
coordinates, at most `4 * 1`. -/
theorem douglasPeuckerAlt_at_most_count_witness :
    (DouglasPeuckerAlt 1 [0, 5, 0, 0, 0] 4).length ≤ 4 * 1 :=
  douglasPeuckerAlt_at_most_count 1 [0, 5, 0, 0, 0] 4 (by decide) (by decide)
    (by decide) (by decide)

/-! ### C5: `FindKey` returns the LAST maximizer on ties -/

/-- The interior offsets `FindKey` visits (`first + DIM`, stepping by `DIM`,
up to but excluding `last`). -/
def fkOffsets (D first last : ℕ) : List ℕ :=
  List.range' (first + D) ((last - (first + D) + (D - 1)) / D) D

/-- The squared segment distance `FindKey` scores offset `cur` with. -/
def fkDist (D : ℕ) (coords : List ℚ) (first last cur : ℕ) : ℚ :=
  segment_distance2 (pointAt D coords first) (pointAt D coords last) (pointAt D coords cur)

/-- One iteration of `FindKey`: keep the stored key only on a strictly
smaller distance, replace it otherwise (also on ties). -/
def fkStep (f : ℕ → ℚ) (ki : KeyInfo) (cur : ℕ) : KeyInfo :=
  if f cur < ki.dist2 then ki else ⟨cur, f cur⟩

lemma fkFold_last (f : ℕ → ℚ) :
    ∀ (l : List ℕ) (ki : KeyInfo), ki.dist2 = f ki.index →
      (∀ j ∈ l, ki.index < j) → List.Pairwise (· < ·) l →
      (l.foldl (fkStep f) ki).dist2 = f (l.foldl (fkStep f) ki).index ∧
      ((l.foldl (fkStep f) ki) = ki ∨ (l.foldl (fkStep f) ki).index ∈ l) ∧
      ki.dist2 ≤ (l.foldl (fkStep f) ki).dist2 ∧
      (∀ j ∈ l, f j ≤ (l.foldl (fkStep f) ki).dist2) ∧
      (∀ j ∈ l, (l.foldl (fkStep f) ki).index < j →
        f j < (l.foldl (fkStep f) ki).dist2) := by
  intro l
  induction l with
  | nil =>
    intro ki h1 h2 h3
    exact ⟨h1, Or.inl rfl, le_refl _, by simp, by simp⟩
  | cons c rest ih =>
    intro ki h1 h2 h3
    rw [List.foldl_cons]
    by_cases hc : f c < ki.dist2
    · have hstep : fkStep f ki c = ki := by rw [fkStep, if_pos hc]
      rw [hstep]
      obtain ⟨g1, g2, g3, g4, g5⟩ := ih ki h1
        (fun j hj => h2 j (List.mem_cons_of_mem _ hj)) (List.pairwise_cons.mp h3).2
      refine ⟨g1, ?_, g3, ?_, ?_⟩
      · rcases g2 with hk | hk
        · exact Or.inl hk
        · exact Or.inr (List.mem_cons_of_mem _ hk)
      · intro j hj
        rcases List.mem_cons.mp hj with rfl | hj
        · exact le_of_lt (lt_of_lt_of_le hc g3)
        · exact g4 j hj
      · intro j hj hlt
        rcases List.mem_cons.mp hj with rfl | hj
        · exact lt_of_lt_of_le hc g3
        · exact g5 j hj hlt
    · have hstep : fkStep f ki c = ⟨c, f c⟩ := by rw [fkStep, if_neg hc]
      rw [hstep]
      have hrest : ∀ j ∈ rest, (⟨c, f c⟩ : KeyInfo).index < j :=
        fun j hj => (List.pairwise_cons.mp h3).1 j hj
      obtain ⟨g1, g2, g3, g4, g5⟩ := ih ⟨c, f c⟩ rfl hrest (List.pairwise_cons.mp h3).2
      refine ⟨g1, ?_, le_trans (le_of_not_lt hc) g3, ?_, ?_⟩
      · rcases g2 with hk | hk
        · exact Or.inr (by rw [hk]; exact List.mem_cons_self _ _)
        · exact Or.inr (List.mem_cons_of_mem _ hk)
      · intro j hj
        rcases List.mem_cons.mp hj with rfl | hj
        · exact g3
        · exact g4 j hj
      · intro j hj hlt
        rcases List.mem_cons.mp hj with rfl | hj
        · exfalso
          rcases g2 with hk | hk
          · rw [hk] at hlt
            exact lt_irrefl _ hlt
          · exact absurd hlt (not_lt.mpr (le_of_lt (hrest _ hk)))
        · exact g5 j hj hlt

/-- C5 as amended.  On a non-empty interior, `FindKey` returns a visited
offset carrying its own squared segment distance, that distance is maximal
among all visited offsets, and every offset strictly AFTER the returned one
scores strictly less: on ties the strict `<` comparison replaces the stored
key, so the LAST maximizer wins, not the first. -/
theorem findKey_last_maximizer (D : ℕ) (coords : List ℚ) (first last : ℕ)
    (hD : D ≠ 0) (hne : fkOffsets D first last ≠ []) :
    (FindKey D coords first last).index ∈ fkOffsets D first last ∧
    (FindKey D coords first last).dist2 =
      fkDist D coords first last (FindKey D coords first last).index ∧
    (∀ j ∈ fkOffsets D first last,
      fkDist D coords first last j ≤ (FindKey D coords first last).dist2) ∧
    (∀ j ∈ fkOffsets D first last, (FindKey D coords first last).index < j →
      fkDist D coords first last j < (FindKey D coords first last).dist2) := by
  have hbr : FindKey D coords first last =
      (fkOffsets D first last).foldl (fkStep (fkDist D coords first last)) ⟨0, 0⟩ := rfl
  obtain ⟨o, rest, ho⟩ := List.exists_cons_of_ne_nil hne
  have hpw : List.Pairwise (· < ·) (fkOffsets D first last) :=
    List.pairwise_lt_range' _ _ D (by omega)
  rw [ho] at hpw
  have hstep1 : fkStep (fkDist D coords first last) ⟨0, 0⟩ o =
      ⟨o, fkDist D coords first last o⟩ := by
    have hnn : ¬ fkDist D coords first last o < (⟨0, 0⟩ : KeyInfo).dist2 :=
      not_lt.mpr (segment_distance2_nonneg _ _ _)
    rw [fkStep, if_neg hnn]
  obtain ⟨g1, g2, g3, g4, g5⟩ := fkFold_last (fkDist D coords first last) rest
    ⟨o, fkDist D coords first last o⟩ rfl
    (fun j hj => (List.pairwise_cons.mp hpw).1 j hj) (List.pairwise_cons.mp hpw).2
  rw [hbr, ho, List.foldl_cons, hstep1]
  refine ⟨?_, g1, ?_, ?_⟩
  · rcases g2 with hk | hk
    · rw [hk]
      exact List.mem_cons_self _ _
    · exact List.mem_cons_of_mem _ hk
  · intro j hj
    rcases List.mem_cons.mp hj with rfl | hj
    · exact g3
    · exact g4 j hj
  · intro j hj hlt
    rcases List.mem_cons.mp hj with rfl | hj
    · exfalso
      rcases g2 with hk | hk
      · rw [hk] at hlt
        exact lt_irrefl _ hlt
      · exact absurd hlt (not_lt.mpr (le_of_lt ((List.pairwise_cons.mp hpw).1 _ hk)))
    · exact g5 j hj hlt

/-- Witness for the amended C5: the tie input `DIM = 1`, coordinates
`[0,1,1,0]`, segment from offset 0 to offset 3 — the returned key is the
later tied offset 2. -/
theorem findKey_last_maximizer_witness :
    (FindKey 1 [0, 1, 1, 0] 0 3).index ∈ fkOffsets 1 0 3 ∧
    (FindKey 1 [0, 1, 1, 0] 0 3).dist2 =
      fkDist 1 [0, 1, 1, 0] 0 3 (FindKey 1 [0, 1, 1, 0] 0 3).index ∧
    (∀ j ∈ fkOffsets 1 0 3,
      fkDist 1 [0, 1, 1, 0] 0 3 j ≤ (FindKey 1 [0, 1, 1, 0] 0 3).dist2) ∧
    (∀ j ∈ fkOffsets 1 0 3, (FindKey 1 [0, 1, 1, 0] 0 3).index < j →
      fkDist 1 [0, 1, 1, 0] 0 3 j < (FindKey 1 [0, 1, 1, 0] 0 3).dist2) :=
  findKey_last_maximizer 1 [0, 1, 1, 0] 0 3 (by decide) (by decide)

/-! ### C9: vector algebra for the radial-distance error bound -/

lemma dot_mv_self : ∀ (a b : Pt),
    dot (make_vector a b) (make_vector a b) = point_distance2 a b := by
  intro a
  induction a with
  | nil => intro b; cases b <;> rfl
  | cons x xs ih =>
    intro b
    cases b with
    | nil => rfl
    | cons y ys =>
      simp only [make_vector, dot, point_distance2, List.zipWith_cons_cons,
        List.sum_cons] at ih ⊢
      rw [ih ys]
      ring_nf

lemma point_distance2_comm : ∀ (a b : Pt), point_distance2 a b = point_distance2 b a := by
  intro a
  induction a with
  | nil => intro b; cases b <;> rfl
  | cons x xs ih =>
    intro b
    cases b with
    | nil => rfl
    | cons y ys =>
      simp only [point_distance2, List.zipWith_cons_cons, List.sum_cons] at ih ⊢
      rw [ih ys]
      ring_nf

lemma pd2_expand : ∀ (s1 s2 p : Pt), s1.length = s2.length → s1.length = p.length →
    point_distance2 p s2 =
      dot (make_vector s1 p) (make_vector s1 p)
        - 2 * dot (make_vector s1 p) (make_vector s1 s2)
        + dot (make_vector s1 s2) (make_vector s1 s2) := by
  intro s1
  induction s1 with
  | nil =>
    intro s2 p h12 h1p
    cases s2 with
    | cons b t =>
      simp only [List.length_nil, List.length_cons] at h12
      exact absurd h12 (by omega)
    | nil =>
      cases p with
      | cons c t =>
        simp only [List.length_nil, List.length_cons] at h1p
        exact absurd h1p (by omega)
      | nil => rfl
  | cons a s1 ih =>
    intro s2 p h12 h1p
    cases s2 with
    | nil =>
      simp only [List.length_cons, List.length_nil] at h12
      exact absurd h12 (by omega)
    | cons b s2 =>
      cases p with
      | nil =>
        simp only [List.length_cons, List.length_nil] at h1p
        exact absurd h1p (by omega)
      | cons c p =>
        have htail := ih s2 p (by simpa using h12) (by simpa using h1p)
        simp only [make_vector, dot, point_distance2, List.zipWith_cons_cons,
          List.sum_cons] at htail ⊢
        rw [htail]
        ring

lemma pd2_interp : ∀ (s1 s2 p : Pt) (t : ℚ), s1.length = s2.length →
    s1.length = p.length →
    point_distance2 p (interpolate s1 s2 t) =
      dot (make_vector s1 p) (make_vector s1 p)
        - 2 * t * dot (make_vector s1 p) (make_vector s1 s2)
        + t * t * dot (make_vector s1 s2) (make_vector s1 s2) := by
  intro s1
  induction s1 with
  | nil =>
    intro s2 p t h12 h1p
    cases s2 with
    | cons b u =>
      simp only [List.length_nil, List.length_cons] at h12
      exact absurd h12 (by omega)
    | nil =>
      cases p with
      | cons c u =>
        simp only [List.length_nil, List.length_cons] at h1p
        exact absurd h1p (by omega)
      | nil =>
        show (0 : ℚ) = 0 - 2 * t * 0 + t * t * 0
        ring
  | cons a s1 ih =>
    intro s2 p t h12 h1p
    cases s2 with
    | nil =>
      simp only [List.length_cons, List.length_nil] at h12
      exact absurd h12 (by omega)
    | cons b s2 =>
      cases p with
      | nil =>
        simp only [List.length_cons, List.length_nil] at h1p
        exact absurd h1p (by omega)
      | cons c p =>
        have htail := ih s2 p t (by simpa using h12) (by simpa using h1p)
        simp only [make_vector, dot, point_distance2, interpolate,
          List.zipWith_cons_cons, List.sum_cons] at htail ⊢
        rw [htail]
        ring

/-- The geometric heart of C9: the squared distance from `p` to the segment
`(s1, s2)` never exceeds the squared distance from `p` to the segment's first
endpoint. -/
lemma segment_distance2_le_pd2 (s1 s2 p : Pt) (h12 : s1.length = s2.length)
    (h1p : s1.length = p.length) :
    segment_distance2 s1 s2 p ≤ point_distance2 s1 p := by
  rw [segment_distance2]
  by_cases h1 : dot (make_vector s1 p) (make_vector s1 s2) ≤ 0
  · rw [if_pos h1]
    exact le_of_eq (point_distance2_comm p s1)
  · rw [if_neg h1]
    push_neg at h1
    by_cases h2 : dot (make_vector s1 s2) (make_vector s1 s2) ≤
        dot (make_vector s1 p) (make_vector s1 s2)
    · rw [if_pos h2]
      rw [pd2_expand s1 s2 p h12 h1p, ← dot_mv_self s1 p]
      linarith
    · rw [if_neg h2]
      push_neg at h2
      have hcv : 0 < dot (make_vector s1 s2) (make_vector s1 s2) := lt_trans h1 h2
      rw [pd2_interp s1 s2 p _ h12 h1p, ← dot_mv_self s1 p]
      have hkey : dot (make_vector s1 p) (make_vector s1 p)
            - 2 * (dot (make_vector s1 p) (make_vector s1 s2) /
                dot (make_vector s1 s2) (make_vector s1 s2)) *
              dot (make_vector s1 p) (make_vector s1 s2)
            + (dot (make_vector s1 p) (make_vector s1 s2) /
                dot (make_vector s1 s2) (make_vector s1 s2)) *
              (dot (make_vector s1 p) (make_vector s1 s2) /
                dot (make_vector s1 s2) (make_vector s1 s2)) *
              dot (make_vector s1 s2) (make_vector s1 s2) =
          dot (make_vector s1 p) (make_vector s1 p)
            - dot (make_vector s1 p) (make_vector s1 s2) *
              dot (make_vector s1 p) (make_vector s1 s2) /
              dot (make_vector s1 s2) (make_vector s1 s2) := by
        field_simp
        ring
      rw [hkey]
      have hnn : 0 ≤ dot (make_vector s1 p) (make_vector s1 s2) *
          dot (make_vector s1 p) (make_vector s1 s2) /
          dot (make_vector s1 s2) (make_vector s1 s2) :=
        div_nonneg (mul_self_nonneg _) (le_of_lt hcv)
      linarith

lemma segment_distance2_self_right (s1 s2 : Pt) : segment_distance2 s1 s2 s2 = 0 := by
  rw [segment_distance2]
  by_cases h1 : dot (make_vector s1 s2) (make_vector s1 s2) ≤ 0
  · rw [if_pos h1]
    have h0 : dot (make_vector s1 s2) (make_vector s1 s2) = 0 :=
      le_antisymm h1 (by rw [dot_mv_self]; exact point_distance2_nonneg _ _)
    rw [point_distance2_comm s2 s1, ← dot_mv_self, h0]
  · rw [if_neg h1, if_pos (le_refl _)]
    exact point_distance2_self s2

lemma cpeInner_split (prev t : Pt) : ∀ (pre rest : List Pt), (∀ o ∈ pre, o ≠ t) →
    cpeInner prev t (pre ++ t :: rest) =
      (pre.map (fun o => segment_distance2 prev t o), t :: rest) := by
  intro pre
  induction pre with
  | nil =>
    intro rest _
    rw [List.nil_append, cpeInner, if_pos rfl]
    rfl
  | cons a pre ih =>
    intro rest h
    rw [List.cons_append, cpeInner, if_neg (h a (by simp)),
      ih rest (fun o ho => h o (by simp [ho]))]
    rfl

/-- Every positional error of the scan over a radial-distance simplification is
within the (squared) tolerance.  The list `pre` holds the original points the
current inner scan has still pending before the next kept point; each of them
lies within the tolerance disc of the current key `c`. -/
lemma rd_scan_bound (D : ℕ) (tol2 : ℚ) (htol : 0 < tol2) :
    ∀ (l : List Pt) (c lastP : Pt) (pre : List Pt),
      c.length = D → lastP.length = D → (∀ q ∈ l, q.length = D) →
      (∀ q ∈ pre, q.length = D) →
      (∀ q ∈ pre, point_distance2 c q < tol2) →
      ∀ e ∈ (cpeOuter (pre ++ l ++ [lastP]) c (rdRec tol2 c l ++ [lastP])).1,
        e ≤ tol2 := by
  intro l
  induction l with
  | nil =>
    intro c lastP pre hc hlast hl hpreD hpre
    obtain ⟨pre2, rem, heq, hsplit, hpre2, hrem⟩ := cpeInner_eq c lastP (pre ++ [lastP])
    rw [rdRec]
    simp only [List.append_nil, List.nil_append]
    rw [cpeOuter]
    simp only [heq, cpeOuter]
    intro e he
    simp only [List.append_nil, List.mem_map] at he
    obtain ⟨o, ho, rfl⟩ := he
    have hoin : o ∈ pre ++ [lastP] := by
      rw [hsplit]
      exact List.mem_append_left _ ho
    rcases List.mem_append.mp hoin with hp | hq
    · calc segment_distance2 c lastP o ≤ point_distance2 c o :=
          segment_distance2_le_pd2 c lastP o (hc.trans hlast.symm)
            (hc.trans (hpreD o hp).symm)
        _ ≤ tol2 := le_of_lt (hpre o hp)
    · have : o = lastP := by simpa using hq
      subst this
      rw [segment_distance2_self_right]
      exact le_of_lt htol
  | cons p ps ih =>
    intro c lastP pre hc hlast hl hpreD hpre
    rw [rdRec]
    by_cases hd : point_distance2 c p < tol2
    · rw [if_pos hd]
      have hshape : pre ++ (p :: ps) ++ [lastP] = (pre ++ [p]) ++ ps ++ [lastP] := by
        simp
      rw [hshape]
      refine ih c lastP (pre ++ [p]) hc hlast (fun q hq => hl q (by simp [hq])) ?_ ?_
      · intro q hq
        rcases List.mem_append.mp hq with h | h
        · exact hpreD q h
        · have : q = p := by simpa using h
          rw [this]
          exact hl p (by simp)
      · intro q hq
        rcases List.mem_append.mp hq with h | h
        · exact hpre q h
        · have : q = p := by simpa using h
          rw [this]
          exact hd
    · rw [if_neg hd]
      push_neg at hd
      have hpnotpre : ∀ q ∈ pre, q ≠ p := by
        intro q hq hcon
        have := hpre q hq
        rw [hcon] at this
        exact absurd this (not_lt.mpr hd)
      have hshape : pre ++ (p :: ps) ++ [lastP] = pre ++ p :: (ps ++ [lastP]) := by
        simp
      rw [hshape, List.cons_append, cpeOuter,
        cpeInner_split c p pre (ps ++ [lastP]) hpnotpre]
      simp only []
      intro e he
      rcases List.mem_append.mp he with hl1 | hl2
      · obtain ⟨o, ho, rfl⟩ := List.mem_map.mp hl1
        calc segment_distance2 c p o ≤ point_distance2 c o :=
            segment_distance2_le_pd2 c p o (hc.trans (hl p (by simp)).symm)
              (hc.trans (hpreD o ho).symm)
          _ ≤ tol2 := le_of_lt (hpre o ho)
      · have hrec := ih p lastP [p] (hl p (by simp)) hlast
          (fun q hq => hl q (by simp [hq]))
          (by
            intro q hq
            have : q = p := by simpa using hq
            rw [this]
            exact hl p (by simp))
          (by
            intro q hq
            have : q = p := by simpa using hq
            rw [this, point_distance2_self]
            exact htol)
        apply hrec
        simpa using hl2

/-- C9.  For every well-formed polyline (`DIM` positive, an exact number of
points, at least 2 of them) and nonzero tolerance, every squared positional
error reported by `ComputePositionalErrors2` on the pair
`(P, RadialDistance(P, tol))` is at most `tol²`: each original point dropped
by the radial scan lies within `tol` of the preceding kept point, and its
distance to the enclosing simplification segment can only be smaller. -/
theorem radialDistance_errors_within_tol (D : ℕ) (xs : List ℚ) (tol : ℚ)
    (hD : D ≠ 0) (hmod : xs.length % D = 0) (hpc : 2 ≤ xs.length / D)
    (htol : tol ≠ 0) :
    ∀ e ∈ (ComputePositionalErrors2 D xs (RadialDistance D xs tol)).1,
      e ≤ tol * tol := by
  have htol2 : 0 < tol * tol := mul_self_pos.mpr htol
  obtain ⟨hlen, hne, hhead, hlast, hplen⟩ :=
    valid_path_facts (m := 2) (by omega) hD hmod hpc
  obtain ⟨p0, rest, hps⟩ := List.exists_cons_of_ne_nil (toPoints_ne_nil hD hne)
  have hrest : rest ≠ [] := by
    intro h
    rw [hps, h] at hplen
    simp at hplen
    omega
  have hRD : RadialDistance D xs tol =
      (p0 :: rdRec (tol * tol) p0 rest.dropLast ++ [rest.getLastD []]).flatten := by
    have hv : ¬(xs.length % D ≠ 0 ∨ (if D = 0 then 0 else xs.length / D) < 2 ∨
        tol * tol = 0) := by
      rw [if_neg hD]
      push_neg
      exact ⟨hmod, hpc, ne_of_gt htol2⟩
    rw [RadialDistance, if_neg hv, hps]
  have hmemP : ∀ q ∈ toPoints D xs, q.length = D := length_mem_toPoints hD xs hmod
  have hp0len : p0.length = D := hmemP p0 (by rw [hps]; simp)
  have hrestlen : ∀ q ∈ rest, q.length = D := fun q hq => hmemP q (by rw [hps]; simp [hq])
  have hlastmem : rest.getLastD [] ∈ rest := by
    rw [getLastD_eq_getLast hrest]
    exact List.getLast_mem hrest
  have hdropsub : ∀ q ∈ rest.dropLast, q ∈ rest :=
    fun q hq => (List.dropLast_sublist rest).subset hq
  have hrdsub : ∀ q ∈ rdRec (tol * tol) p0 rest.dropLast, q ∈ rest :=
    fun q hq => hdropsub q ((rdRec_sublist _ _ _).subset hq)
  have hK : ∀ q ∈ p0 :: rdRec (tol * tol) p0 rest.dropLast ++ [rest.getLastD []],
      q.length = D := by
    intro q hq
    rcases List.mem_append.mp hq with h | h
    · rcases List.mem_cons.mp h with rfl | h
      · exact hp0len
      · exact hrestlen q (hrdsub q h)
    · have : q = rest.getLastD [] := by simpa using h
      rw [this]
      exact hrestlen _ hlastmem
  have hRlen : (RadialDistance D xs tol).length =
      (p0 :: rdRec (tol * tol) p0 rest.dropLast ++ [rest.getLastD []]).length * D := by
    rw [hRD, flatten_length_of_chunks hK]
  have hKlen : (p0 :: rdRec (tol * tol) p0 rest.dropLast ++ [rest.getLastD []]).length =
      (rdRec (tol * tol) p0 rest.dropLast).length + 2 := by
    simp
  have hRmod : (RadialDistance D xs tol).length % D = 0 := by
    rw [hRlen]
    exact Nat.mul_mod_left _ _
  have hRpc : (RadialDistance D xs tol).length / D =
      (rdRec (tol * tol) p0 rest.dropLast).length + 2 := by
    rw [hRlen, hKlen, Nat.mul_div_cancel _ (Nat.pos_of_ne_zero hD)]
  have hple : (rdRec (tol * tol) p0 rest.dropLast).length + 2 ≤ xs.length / D := by
    have h1 : (rdRec (tol * tol) p0 rest.dropLast).length ≤ rest.dropLast.length :=
      (rdRec_sublist _ _ _).length_le
    have h2 : rest.dropLast.length = rest.length - 1 := List.length_dropLast rest
    have h3 : (toPoints D xs).length = rest.length + 1 := by
      rw [hps]
      simp
    have h4 : 0 < rest.length := List.length_pos.mpr hrest
    rw [hplen] at h3
    omega
  have hp0take : p0 = xs.take D := by
    rw [hps] at hhead
    simpa using hhead
  have htake : xs.take D = (RadialDistance D xs tol).take D := by
    rw [hRD]
    rw [flatten_take_head (c := p0) ?_ hp0len]
    · exact hp0take.symm
    · rw [List.cons_append]
      rfl
  have hv2 : ¬(xs.length % D ≠ 0 ∨ (if D = 0 then 0 else xs.length / D) < 2 ∨
      (RadialDistance D xs tol).length % D ≠ 0 ∨
      (if D = 0 then 0 else (RadialDistance D xs tol).length / D) < 2 ∨
      (if D = 0 then 0 else xs.length / D) <
        (if D = 0 then 0 else (RadialDistance D xs tol).length / D) ∨
      xs.take D ≠ (RadialDistance D xs tol).take D) := by
    simp only [if_neg hD]
    push_neg
    refine ⟨hmod, hpc, hRmod, ?_, ?_, htake⟩
    · rw [hRpc]
      omega
    · rw [hRpc]
      exact hple
  have hps2 : toPoints D (RadialDistance D xs tol) =
      p0 :: (rdRec (tol * tol) p0 rest.dropLast ++ [rest.getLastD []]) := by
    rw [hRD, toPoints_flatten hD _ hK]
    rw [List.cons_append]
  rw [cpe_valid_shape hv2 hps2]
  intro e he
  rcases List.mem_append.mp he with h1 | h2
  · have horig : toPoints D xs = [p0] ++ rest.dropLast ++ [rest.getLastD []] := by
      rw [hps]
      simp only [List.singleton_append, List.cons_append, List.append_assoc,
        List.nil_append]
      congr 1
      rw [getLastD_eq_getLast hrest]
      exact (List.dropLast_append_getLast hrest).symm
    rw [horig] at h1
    exact rd_scan_bound D (tol * tol) htol2 rest.dropLast p0 (rest.getLastD [])
      [p0] hp0len (hrestlen _ hlastmem)
      (fun q hq => hrestlen q (hdropsub q hq))
      (by
        intro q hq
        have : q = p0 := by simpa using hq
        rw [this]
        exact hp0len)
      (by
        intro q hq
        have : q = p0 := by simpa using hq
        rw [this, point_distance2_self]
        exact htol2)
      e h1
  · by_cases hc2 : (cpeOuter (toPoints D xs) p0
        (rdRec (tol * tol) p0 rest.dropLast ++ [rest.getLastD []])).2 ≠ []
    · rw [if_pos hc2] at h2
      have : e = 0 := by simpa using h2
      rw [this]
      exact le_of_lt htol2
    · rw [if_neg hc2] at h2
      simp at h2

/-- Witness for C9: the 2-D polyline `(0,0) (1,1) (4,0)` with tolerance 2 —
the radial scan drops `(1,1)`, whose reported squared error against the
segment `(0,0)-(4,0)` is `1 ≤ 4`. -/
theorem radialDistance_errors_within_tol_witness :
    (1 : ℚ) ∈ (ComputePositionalErrors2 2 [0, 0, 1, 1, 4, 0]
        (RadialDistance 2 [0, 0, 1, 1, 4, 0] 2)).1 ∧
    (1 : ℚ) ≤ 2 * 2 :=
  ⟨by decide,
   radialDistance_errors_within_tol 2 [0, 0, 1, 1, 4, 0] 2 (by decide) (by decide)
     (by decide) (by decide) 1 (by decide)⟩

end Psimpl
